import Mathlib

set_option maxHeartbeats 1000000

namespace Autodidact

/-- Keyword arguments are opaque to the core: the tracer and backward pass only
forward them to the backend functions and VJP rules, never inspecting them.
We model a kwargs dict as an opaque token. -/
abbrev KW := Nat

mutual
/-- A Python value flowing through the tracer: either a raw (backend) value,
carrying the name of its Python type and a payload, or a `Box` wrapping a
value together with a trace id and a graph node (tracer.py, class Box). -/
inductive PyVal where
  | raw (ty : Nat) (v : Int)
  | box (value : PyVal) (trace_id : Int) (node : GNode)

/-- A node of the computation graph (tracer.py, class Node).  `root` is the
node made by `Node.new_root` (empty parents, no-op recipe).  A non-root node
stores its recipe `(fun, value, args, kwargs, parent_argnums)` — the wrapped
function is represented by its stable identity `fid`, as the registry keys
primitives by identity — together with the parent nodes. -/
inductive GNode where
  | root
  | node (fid : Nat) (value : PyVal) (args : List PyVal) (kwargs : KW)
         (argnums : List Nat) (parents : List GNode)
end

mutual

/-- Decidable equality on values (Python compares boxes and raw values
structurally in our model; see the note on object identity at `toposort`). -/
def decEqPyVal : (a b : PyVal) → Decidable (a = b)
  | .raw t v, .raw t' v' =>
    match Nat.decEq t t' with
    | isFalse h => isFalse (fun e => h (by cases e; rfl))
    | isTrue h1 =>
      match Int.decEq v v' with
      | isFalse h => isFalse (fun e => h (by cases e; rfl))
      | isTrue h2 => isTrue (by rw [h1, h2])
  | .raw _ _, .box _ _ _ => isFalse (fun e => PyVal.noConfusion e)
  | .box _ _ _, .raw _ _ => isFalse (fun e => PyVal.noConfusion e)
  | .box v i n, .box v' i' n' =>
    match decEqPyVal v v' with
    | isFalse h => isFalse (fun e => h (by cases e; rfl))
    | isTrue h1 =>
      match Int.decEq i i' with
      | isFalse h => isFalse (fun e => h (by cases e; rfl))
      | isTrue h2 =>
        match decEqGNode n n' with
        | isFalse h => isFalse (fun e => h (by cases e; rfl))
        | isTrue h3 => isTrue (by rw [h1, h2, h3])

/-- Decidable equality on graph nodes. -/
def decEqGNode : (a b : GNode) → Decidable (a = b)
  | .root, .root => isTrue rfl
  | .root, .node _ _ _ _ _ _ => isFalse (fun e => GNode.noConfusion e)
  | .node _ _ _ _ _ _, .root => isFalse (fun e => GNode.noConfusion e)
  | .node f v a k an ps, .node f' v' a' k' an' ps' =>
    match Nat.decEq f f' with
    | isFalse h => isFalse (fun e => h (by cases e; rfl))
    | isTrue h1 =>
      match decEqPyVal v v' with
      | isFalse h => isFalse (fun e => h (by cases e; rfl))
      | isTrue h2 =>
        match decEqListPyVal a a' with
        | isFalse h => isFalse (fun e => h (by cases e; rfl))
        | isTrue h3 =>
          match Nat.decEq k k' with
          | isFalse h => isFalse (fun e => h (by cases e; rfl))
          | isTrue h4 =>
            match List.hasDecEq an an' with
            | isFalse h => isFalse (fun e => h (by cases e; rfl))
            | isTrue h5 =>
              match decEqListGNode ps ps' with
              | isFalse h => isFalse (fun e => h (by cases e; rfl))
              | isTrue h6 => isTrue (by rw [h1, h2, h3, h4, h5, h6])

/-- Decidable equality on lists of values. -/
def decEqListPyVal : (a b : List PyVal) → Decidable (a = b)
  | [], [] => isTrue rfl
  | [], _ :: _ => isFalse (fun e => List.noConfusion e)
  | _ :: _, [] => isFalse (fun e => List.noConfusion e)
  | x :: xs, y :: ys =>
    match decEqPyVal x y with
    | isFalse h => isFalse (fun e => h (by cases e; rfl))
    | isTrue h1 =>
      match decEqListPyVal xs ys with
      | isFalse h => isFalse (fun e => h (by cases e; rfl))
      | isTrue h2 => isTrue (by rw [h1, h2])

/-- Decidable equality on lists of graph nodes. -/
def decEqListGNode : (a b : List GNode) → Decidable (a = b)
  | [], [] => isTrue rfl
  | [], _ :: _ => isFalse (fun e => List.noConfusion e)
  | _ :: _, [] => isFalse (fun e => List.noConfusion e)
  | x :: xs, y :: ys =>
    match decEqGNode x y with
    | isFalse h => isFalse (fun e => h (by cases e; rfl))
    | isTrue h1 =>
      match decEqListGNode xs ys with
      | isFalse h => isFalse (fun e => h (by cases e; rfl))
      | isTrue h2 => isTrue (by rw [h1, h2])

end

instance : DecidableEq PyVal := decEqPyVal

instance : DecidableEq GNode := decEqGNode

instance : Inhabited PyVal := ⟨.raw 0 0⟩

/-- `node.parents` (tracer.py, `Node.__init__` / `initialize_root`): the root
node has empty parents. -/
def parentsOf : GNode → List GNode
  | .root => []
  | .node _ _ _ _ _ ps => ps

/-- First recipe component: the identity of the wrapped function.  The root
recipe holds `lambda x: x`; we give it the reserved identity `0` — it is never
looked up in the registry because the root has no parents. -/
def nodeFid : GNode → Nat
  | .root => 0
  | .node f _ _ _ _ _ => f

/-- Second recipe component (`value`): the root recipe stores `None`, which is
never read because the root's parent zip is empty; we use a placeholder. -/
def nodeVal : GNode → PyVal
  | .root => .raw 0 0
  | .node _ v _ _ _ _ => v

/-- Third recipe component (`args`): the root recipe stores `()`. -/
def nodeArgs : GNode → List PyVal
  | .root => []
  | .node _ _ a _ _ _ => a

/-- Fourth recipe component (`kwargs`): the root recipe stores `{}` (token 0). -/
def nodeKW : GNode → KW
  | .root => 0
  | .node _ _ _ k _ _ => k

/-- Fifth recipe component (`parent_argnums`): the root recipe stores `[]`. -/
def nodeArgnums : GNode → List Nat
  | .root => []
  | .node _ _ _ _ an _ => an

/-- tracer.py line 241: `isbox = lambda x: type(x) in box_types`. -/
def isbox : PyVal → Bool
  | .box _ _ _ => true
  | .raw _ _ => false

/-- tracer.py line 244: `getval = lambda x: getval(x._value) if isbox(x) else x`. -/
def getval : PyVal → PyVal
  | .box v _ _ => getval v
  | .raw t v => .raw t v

/-- A box's `_value` field; callers only apply this under an `isbox` guard, so
the raw case is arbitrary (identity). -/
def boxVal : PyVal → PyVal
  | .box v _ _ => v
  | .raw t v => .raw t v

/-- A box's `_trace_id` field; only read under an `isbox` guard. -/
def boxTid : PyVal → Int
  | .box _ t _ => t
  | .raw _ _ => -1

/-- A box's `_node` field; only read under an `isbox` guard. -/
def boxNode : PyVal → GNode
  | .box _ _ n => n
  | .raw _ _ => .root

/-- `type(value)` as reported in the `TypeError` message of `new_box`; for a
box the type is its Box subclass, which never reaches the error branch. -/
def pyTypeOf : PyVal → Nat
  | .raw t _ => t
  | .box _ _ _ => 0

/-- util.py, `subvals(x, ivs)`: copy `x` and assign `x_[i] = v` for each pair. -/
def subvals (x : List PyVal) (ivs : List (Nat × PyVal)) : List PyVal :=
  ivs.foldl (fun acc iv => acc.set iv.1 iv.2) x

/-- The loop of tracer.py `find_top_boxed_args`, with the running `argnum` from
`enumerate`, the accumulated `top_boxes` and the running `top_trace_id`. -/
def ftbaGo (argnum : Nat) (topBoxes : List (Nat × PyVal)) (topTraceId : Int) :
    List PyVal → List (Nat × PyVal) × Int
  | [] => (topBoxes, topTraceId)
  | arg :: rest =>
    if isbox arg then
      if boxTid arg > topTraceId then
        ftbaGo (argnum + 1) [(argnum, arg)] (boxTid arg) rest
      else if boxTid arg = topTraceId then
        ftbaGo (argnum + 1) (topBoxes ++ [(argnum, arg)]) topTraceId rest
      else
        ftbaGo (argnum + 1) topBoxes topTraceId rest
    else
      ftbaGo (argnum + 1) topBoxes topTraceId rest

/-- tracer.py lines 118-141, `find_top_boxed_args(args)`: starts with
`top_trace_id = -1` and empty `top_boxes`. -/
def find_top_boxed_args (args : List PyVal) : List (Nat × PyVal) × Int :=
  ftbaGo 0 [] (-1) args

/-- Exceptions the embedded code can raise. `unsupportedType` is the
`TypeError` of `new_box`; `keyError` is the dict KeyError of
`outgrads.pop`/`child_counts[parent]`; `missingVJP` the KeyError of
`primitive_vjps[fun][argnum]`; `nameError` the unbound `outgrad` on an empty
loop; `userError` stands for an arbitrary exception raised by the traced
user function. -/
inductive Err where
  | unsupportedType (ty : Nat)
  | keyError
  | missingVJP
  | nameError
  | userError (code : Nat)
deriving DecidableEq

/-- The external array backend together with the process-wide registration
state the tracer reads: `rawFun` gives each primitive identity its raw
(numpy) function, `boxedType` says which raw types have a registered Box
subclass in `Box.type_mappings`, `zerosLike` is `np.zeros_like`, and `add`
the backend `+` used by `add_outgrads`. -/
structure Env where
  rawFun : Nat → List PyVal → KW → PyVal
  boxedType : Nat → Bool
  zerosLike : PyVal → PyVal
  add : PyVal → PyVal → PyVal

/-- Whether `type(value)` has an entry in `box_type_mappings`: raw types are
looked up in the registry; every Box subclass maps to itself because
`Box.register` installs `Box.type_mappings[cls] = cls`. -/
def boxable (env : Env) : PyVal → Bool
  | .raw t _ => env.boxedType t
  | .box _ _ _ => true

/-- tracer.py lines 222-236, `new_box(value, trace_id, node)`: construct the
registered box type, or raise `TypeError` when `type(value)` has no mapping. -/
def new_box (env : Env) (value : PyVal) (trace_id : Int) (node : GNode) :
    Except Err PyVal :=
  if boxable env value then .ok (.box value trace_id node)
  else .error (.unsupportedType (pyTypeOf value))

/-- tracer.py lines 94-116, `notrace_primitive(f_raw)`: the wrapper maps
`getval` over the positional arguments and calls the raw function; kwargs
are forwarded untouched and nothing is recorded. -/
def notrace_apply (env : Env) (fid : Nat) (args : List PyVal) (kwargs : KW) :
    PyVal :=
  env.rawFun fid (args.map getval) kwargs

/-- Modelled from the spec: the largest `trace_id` among boxed positional
arguments, starting from the sentinel `-1` ("the scan finds the largest
trace_id among boxed positional arguments"). -/
def runMaxTid (t : Int) : List PyVal → Int
  | [] => t
  | a :: rest => runMaxTid (if isbox a ∧ boxTid a > t then boxTid a else t) rest

/-- Modelled from the spec: "all boxes tied for that maximum (the ordered
pairs of `(argnum, box)`)" — the boxed positions of the argument list whose
trace id equals `t`, with positions counted from `argnum`. -/
def filtTop (argnum : Nat) (t : Int) : List PyVal → List (Nat × PyVal)
  | [] => []
  | a :: rest =>
    if isbox a ∧ boxTid a = t then (argnum, a) :: filtTop (argnum + 1) t rest
    else filtTop (argnum + 1) t rest

theorem runMaxTid_le (l : List PyVal) : ∀ t, t ≤ runMaxTid t l := by
  induction l with
  | nil => intro t; exact le_refl t
  | cons a rest ih =>
    intro t
    refine le_trans ?_ (ih _)
    split
    · omega
    · exact le_refl t

theorem ftbaGo_spec (l : List PyVal) : ∀ (argnum : Nat)
    (acc : List (Nat × PyVal)) (t : Int),
    ftbaGo argnum acc t l =
      (if runMaxTid t l = t then acc ++ filtTop argnum t l
       else filtTop argnum (runMaxTid t l) l,
       runMaxTid t l) := by
  induction l with
  | nil => intro argnum acc t; simp [ftbaGo, filtTop, runMaxTid]
  | cons a rest ih =>
    intro argnum acc t
    by_cases hb : isbox a = true
    · by_cases hgt : boxTid a > t
      · have hstep : ftbaGo argnum acc t (a :: rest) =
            ftbaGo (argnum + 1) [(argnum, a)] (boxTid a) rest := by
          simp [ftbaGo, hb, hgt]
        have hmax : runMaxTid t (a :: rest) = runMaxTid (boxTid a) rest := by
          simp [runMaxTid, hb, hgt]
        have hMge : boxTid a ≤ runMaxTid (boxTid a) rest := runMaxTid_le _ _
        have hMt : ¬ (runMaxTid (boxTid a) rest = t) := by omega
        rw [hstep, ih, hmax, if_neg hMt]
        simp only [filtTop]
        by_cases heq : runMaxTid (boxTid a) rest = boxTid a
        · rw [if_pos heq,
            if_pos (show isbox a = true ∧
              boxTid a = runMaxTid (boxTid a) rest from ⟨hb, heq.symm⟩), heq]
          simp
        · rw [if_neg heq,
            if_neg (show ¬ (isbox a = true ∧
              boxTid a = runMaxTid (boxTid a) rest) from fun h => heq h.2.symm)]
      · by_cases heq : boxTid a = t
        · have hstep : ftbaGo argnum acc t (a :: rest) =
              ftbaGo (argnum + 1) (acc ++ [(argnum, a)]) t rest := by
            simp [ftbaGo, hb, hgt, heq]
          have hmax : runMaxTid t (a :: rest) = runMaxTid t rest := by
            simp [runMaxTid, hb, hgt]
          rw [hstep, ih, hmax]
          simp only [filtTop]
          by_cases hM : runMaxTid t rest = t
          · rw [if_pos hM, if_pos hM,
              if_pos (show isbox a = true ∧ boxTid a = t from ⟨hb, heq⟩)]
            simp
          · rw [if_neg hM, if_neg hM,
              if_neg (show ¬ (isbox a = true ∧ boxTid a = runMaxTid t rest)
                from fun h => hM (heq ▸ h.2.symm))]
        · have hlt : boxTid a < t := by omega
          have hstep : ftbaGo argnum acc t (a :: rest) =
              ftbaGo (argnum + 1) acc t rest := by
            simp [ftbaGo, hb, hgt, heq]
          have hmax : runMaxTid t (a :: rest) = runMaxTid t rest := by
            simp [runMaxTid, hb, hgt]
          rw [hstep, ih, hmax]
          simp only [filtTop]
          have hge : t ≤ runMaxTid t rest := runMaxTid_le _ _
          by_cases hM : runMaxTid t rest = t
          · rw [if_pos hM, if_pos hM,
              if_neg (show ¬ (isbox a = true ∧ boxTid a = t)
                from fun h => heq h.2)]
          · rw [if_neg hM, if_neg hM,
              if_neg (show ¬ (isbox a = true ∧ boxTid a = runMaxTid t rest)
                from fun h => by omega)]
    · have hstep : ftbaGo argnum acc t (a :: rest) =
          ftbaGo (argnum + 1) acc t rest := by
        simp [ftbaGo, hb]
      have hmax : runMaxTid t (a :: rest) = runMaxTid t rest := by
        simp [runMaxTid, hb]
      rw [hstep, ih, hmax]
      simp only [filtTop]
      by_cases hM : runMaxTid t rest = t
      · rw [if_pos hM, if_pos hM,
          if_neg (show ¬ (isbox a = true ∧ boxTid a = t) from fun h => hb h.1)]
      · rw [if_neg hM, if_neg hM,
          if_neg (show ¬ (isbox a = true ∧ boxTid a = runMaxTid t rest)
            from fun h => hb h.1)]

/-- `find_top_boxed_args` returns exactly the boxed positions tied for the
largest trace id, and that trace id. -/
theorem find_top_spec (args : List PyVal) :
    find_top_boxed_args args =
      (filtTop 0 (runMaxTid (-1) args) args, runMaxTid (-1) args) := by
  unfold find_top_boxed_args
  rw [ftbaGo_spec]
  by_cases hM : runMaxTid (-1) args = (-1 : Int)
  · simp [hM]
  · simp [hM]

theorem mem_filtTop (l : List PyVal) : ∀ (argnum : Nat) (t : Int)
    (p : Nat × PyVal),
    p ∈ filtTop argnum t l ↔
      ∃ j, j < l.length ∧ p = (argnum + j, l.getD j default) ∧
        isbox (l.getD j default) = true ∧ boxTid (l.getD j default) = t := by
  induction l with
  | nil => intro argnum t p; simp [filtTop]
  | cons a rest ih =>
    intro argnum t p
    constructor
    · intro hp
      by_cases hc : isbox a = true ∧ boxTid a = t
      · rw [filtTop, if_pos hc] at hp
        rcases List.mem_cons.mp hp with h | h
        · exact ⟨0, by simp, by simpa using h, by simpa using hc.1,
            by simpa using hc.2⟩
        · obtain ⟨j, hj, hpe, hbx, hbt⟩ := (ih _ _ _).mp h
          exact ⟨j + 1, by simpa using Nat.succ_lt_succ hj,
            by simpa [Nat.add_assoc, Nat.add_comm 1 j] using hpe,
            by simpa using hbx, by simpa using hbt⟩
      · rw [filtTop, if_neg hc] at hp
        obtain ⟨j, hj, hpe, hbx, hbt⟩ := (ih _ _ _).mp hp
        exact ⟨j + 1, by simpa using Nat.succ_lt_succ hj,
          by simpa [Nat.add_assoc, Nat.add_comm 1 j] using hpe,
          by simpa using hbx, by simpa using hbt⟩
    · rintro ⟨j, hj, hpe, hbx, hbt⟩
      cases j with
      | zero =>
        simp only [List.getD_cons_zero] at hpe hbx hbt
        have hc : isbox a = true ∧ boxTid a = t := ⟨hbx, hbt⟩
        rw [filtTop, if_pos hc]
        simp [hpe]
      | succ j' =>
        simp only [List.getD_cons_succ] at hpe hbx hbt
        have hmem : p ∈ filtTop (argnum + 1) t rest :=
          (ih _ _ _).mpr ⟨j', by simp at hj; omega,
            by simpa [Nat.add_assoc, Nat.add_comm 1 j'] using hpe, hbx, hbt⟩
        rw [filtTop]
        split
        · exact List.mem_cons_of_mem _ hmem
        · exact hmem

theorem filtTop_fst_ge (l : List PyVal) : ∀ (argnum : Nat) (t : Int)
    (p : Nat × PyVal), p ∈ filtTop argnum t l → argnum ≤ p.1 := by
  intro argnum t p hp
  obtain ⟨j, _, hpe, _, _⟩ := (mem_filtTop l argnum t p).mp hp
  rw [hpe]
  exact Nat.le_add_right _ _

theorem filtTop_pairwise (l : List PyVal) : ∀ (argnum : Nat) (t : Int),
    (filtTop argnum t l).Pairwise (fun p q => p.1 < q.1) := by
  induction l with
  | nil => intro argnum t; simp [filtTop]
  | cons a rest ih =>
    intro argnum t
    rw [filtTop]
    split
    · refine List.Pairwise.cons ?_ (ih _ _)
      intro q hq
      have := filtTop_fst_ge rest (argnum + 1) t q hq
      simpa using Nat.lt_of_lt_of_le (Nat.lt_succ_self argnum) this
    · exact ih _ _

theorem runMaxTid_ge_mem (l : List PyVal) : ∀ (t : Int) (j : Nat),
    j < l.length → isbox (l.getD j default) = true →
    boxTid (l.getD j default) ≤ runMaxTid t l := by
  induction l with
  | nil => intro t j hj hbx; simp at hj
  | cons a rest ih =>
    intro t j hj hbx
    cases j with
    | zero =>
      simp only [List.getD_cons_zero] at hbx ⊢
      rw [runMaxTid]
      refine le_trans ?_ (runMaxTid_le _ _)
      split
      · omega
      · rename_i hcond
        by_contra hc
        push_neg at hc
        exact hcond ⟨hbx, hc⟩
    | succ j' =>
      simp only [List.getD_cons_succ] at hbx ⊢
      rw [runMaxTid]
      exact ih _ j' (by simpa using Nat.lt_of_succ_lt_succ hj) hbx

/-- Every element of `find_top_boxed_args args` is a boxed argument read off
its position, carrying the returned trace id. -/
theorem ftba_mem_facts {args : List PyVal} {p : Nat × PyVal}
    (hp : p ∈ (find_top_boxed_args args).1) :
    p.1 < args.length ∧ p.2 = args.getD p.1 default ∧ isbox p.2 = true ∧
      boxTid p.2 = (find_top_boxed_args args).2 := by
  rw [find_top_spec] at hp ⊢
  obtain ⟨j, hj, hpe, hbx, hbt⟩ := (mem_filtTop _ _ _ _).mp hp
  rw [hpe]
  exact ⟨by simpa using hj, by simp, by simpa using hbx, by simpa using hbt⟩

theorem ftba_pairwise (args : List PyVal) :
    (find_top_boxed_args args).1.Pairwise (fun p q => p.1 < q.1) := by
  rw [find_top_spec]
  exact filtTop_pairwise _ _ _

theorem sizeOf_list_set (l : List PyVal) : ∀ (i : Nat) (v : PyVal),
    i < l.length →
    sizeOf (l.set i v) + sizeOf (l.getD i default) = sizeOf l + sizeOf v := by
  induction l with
  | nil => intro i v hi; simp at hi
  | cons a rest ih =>
    intro i v hi
    cases i with
    | zero => simp [List.set]; omega
    | succ i' =>
      simp only [List.set, List.getD_cons_succ, List.cons.sizeOf_spec]
      have := ih i' v (by simpa using Nat.lt_of_succ_lt_succ hi)
      omega

theorem getD_set_ne (l : List PyVal) : ∀ (i j : Nat) (v : PyVal), i ≠ j →
    (l.set i v).getD j default = l.getD j default := by
  induction l with
  | nil => intro i j v _; simp [List.set]
  | cons a rest ih =>
    intro i j v hij
    cases i with
    | zero =>
      cases j with
      | zero => exact absurd rfl hij
      | succ j' => simp [List.set]
    | succ i' =>
      cases j with
      | zero => simp [List.set]
      | succ j' =>
        simp only [List.set, List.getD_cons_succ]
        exact ih i' j' v (fun h => hij (by rw [h]))

theorem subvals_sizeOf_lt : ∀ (ivs : List (Nat × PyVal)) (l : List PyVal),
    (∀ p ∈ ivs, p.1 < l.length ∧ sizeOf p.2 < sizeOf (l.getD p.1 default)) →
    ivs.Pairwise (fun p q => p.1 ≠ q.1) →
    sizeOf (subvals l ivs) ≤ sizeOf l ∧
      (ivs ≠ [] → sizeOf (subvals l ivs) < sizeOf l) := by
  intro ivs
  induction ivs with
  | nil => intro l _ _; exact ⟨le_refl _, fun h => absurd rfl h⟩
  | cons iv rest ih =>
    intro l hprem hpw
    have hstep : subvals l (iv :: rest) = subvals (l.set iv.1 iv.2) rest := rfl
    have hhead := hprem iv (List.mem_cons_self _ _)
    have hlt : sizeOf (l.set iv.1 iv.2) < sizeOf l := by
      have := sizeOf_list_set l iv.1 iv.2 hhead.1
      omega
    have hrest : ∀ p ∈ rest, p.1 < (l.set iv.1 iv.2).length ∧
        sizeOf p.2 < sizeOf ((l.set iv.1 iv.2).getD p.1 default) := by
      intro p hp
      have hne : iv.1 ≠ p.1 := (List.pairwise_cons.mp hpw).1 p hp
      have hpp := hprem p (List.mem_cons_of_mem _ hp)
      rw [List.length_set, getD_set_ne l iv.1 p.1 iv.2 hne]
      exact hpp
    have := ih (l.set iv.1 iv.2) hrest (List.pairwise_cons.mp hpw).2
    exact ⟨le_of_lt (lt_of_le_of_lt this.1 hlt),
      fun _ => lt_of_le_of_lt this.1 hlt⟩

/-- tracer.py lines 62-92, `primitive(f_raw)`: the behaviour of the wrapped
function `f_wrapped` on positional arguments `args` and kwargs.  A primitive
is identified by `fid`; the recursive call on the partially-unboxed argument
values is `f_wrapped` itself, not the raw function. -/
def prim_apply (env : Env) (fid : Nat) (args : List PyVal) (kwargs : KW) :
    Except Err PyVal :=
  let fr := find_top_boxed_args args
  if h : fr.1 = [] then
    .ok (env.rawFun fid args kwargs)
  else
    let argvals := subvals args (fr.1.map (fun p => (p.1, boxVal p.2)))
    let parents := fr.1.map (fun p => boxNode p.2)
    let argnums := fr.1.map (fun p => p.1)
    match prim_apply env fid argvals kwargs with
    | .error e => .error e
    | .ok ans => new_box env ans fr.2 (.node fid ans argvals kwargs argnums parents)
termination_by sizeOf args
decreasing_by
  refine (subvals_sizeOf_lt _ args ?_ ?_).2 ?_
  · intro p hp
    simp only [List.mem_map] at hp
    obtain ⟨q, hq, rfl⟩ := hp
    obtain ⟨h1, h2, h3, _⟩ := ftba_mem_facts hq
    refine ⟨h1, ?_⟩
    rw [← h2]
    cases hqv : q.2 with
    | raw t v => rw [hqv] at h3; simp [isbox] at h3
    | box v t n => simp [boxVal]; omega
  · have := ftba_pairwise args
    exact List.Pairwise.map _ (fun a b hab => Nat.ne_of_lt hab) this
  · simpa using h

/-- tracer.py lines 18-33, `trace(start_node, fun, x)`, together with the
trace-stack bookkeeping of `TraceStack.new_trace` (lines 168-173).  The
`@contextmanager` generator increments `self.top` before yielding and runs
`self.top -= 1` only when the `with` body finishes normally: there is no
try/finally around the yield, so an exception thrown into the generator skips
the decrement.  We thread the counter explicitly: the result is the pair of
the new value of `trace_stack.top` and the outcome of the body. -/
def trace (env : Env) (start_node : GNode) (f : PyVal → Except Err PyVal)
    (x : PyVal) (top : Int) : Int × Except Err (PyVal × Option GNode) :=
  let top1 := top + 1
  let trace_id := top1
  match new_box env x trace_id start_node with
  | .error e => (top1, .error e)
  | .ok start_box =>
    match f start_box with
    | .error e => (top1, .error e)
    | .ok end_box =>
      if isbox end_box ∧ boxTid end_box = boxTid start_box then
        (top1 - 1, .ok (boxVal end_box, some (boxNode end_box)))
      else
        (top1 - 1, .ok (end_box, none))

/-- A VJP rule as registered by `defvjp`: `vjp(g, ans, *args, **kwargs)`. -/
abbrev Rule := PyVal → PyVal → List PyVal → KW → PyVal

/-- core.py line 68: `primitive_vjps`, the two-level mapping
primitive-identity → argnum → rule; an absent entry raises KeyError. -/
abbrev Registry := Nat → Nat → Option Rule

/-- core.py lines 62-66, `add_outgrads(prev_g, g)`. -/
def add_outgrads (env : Env) : Option PyVal → PyVal → PyVal
  | none, g => g
  | some prev, g => env.add prev g

/-- Association-list model of a Python dict keyed by graph nodes (our nodes
are compared structurally; distinct heap objects of the source are modelled
as structurally distinct values). -/
def alook {β : Type} : List (GNode × β) → GNode → Option β
  | [], _ => none
  | (k, v) :: rest, n => if k = n then some v else alook rest n

/-- Dict assignment: replace the entry when the key is present, else insert. -/
def aset {β : Type} : List (GNode × β) → GNode → β → List (GNode × β)
  | [], n, v => [(n, v)]
  | (k, w) :: rest, n, v =>
    if k = n then (n, v) :: rest else (k, w) :: aset rest n v

/-- Dict `pop`'s removal of an entry. -/
def aremove {β : Type} : List (GNode × β) → GNode → List (GNode × β)
  | [], _ => []
  | (k, w) :: rest, n => if k = n then rest else (k, w) :: aremove rest n

/-- The per-node child counts of util.py `toposort`. -/
abbrev Counts := List (GNode × Nat)

theorem sizeOf_list_append (l1 l2 : List GNode) :
    sizeOf (l1 ++ l2) + 1 = sizeOf l1 + sizeOf l2 := by
  induction l1 with
  | nil => simp; omega
  | cons a rest ih => simp only [List.cons_append, List.cons.sizeOf_spec]; omega

theorem sizeOf_list_reverse (l : List GNode) : sizeOf l.reverse = sizeOf l := by
  induction l with
  | nil => rfl
  | cons a rest ih =>
    rw [List.reverse_cons]
    have h1 := sizeOf_list_append rest.reverse [a]
    simp only [List.cons.sizeOf_spec] at h1 ⊢
    simp only [ih] at h1
    simp only [List.nil.sizeOf_spec] at h1
    omega

theorem parentsOf_sizeOf (n : GNode) : sizeOf (parentsOf n) ≤ sizeOf n + 1 := by
  cases n with
  | root => simp [parentsOf]
  | node f v a k an ps => simp [parentsOf]; omega

/-- util.py lines 13-21, the first loop of `toposort`: depth-first walk from
the end node; the first visit of a node sets its count to 1 and pushes its
parents, later visits increment the count.  The Python list used as a stack
pops from the end; we model the stack with its head as the top, so
`stack.extend(node.parents)` prepends the reversed parent list. -/
def countPhase (counts : Counts) (stack : List GNode) : Counts :=
  match stack with
  | [] => counts
  | node :: rest =>
    match alook counts node with
    | some c => countPhase (aset counts node (c + 1)) rest
    | none => countPhase ((node, 1) :: counts) ((parentsOf node).reverse ++ rest)
termination_by sizeOf stack
decreasing_by
  · simp only [List.cons.sizeOf_spec]; omega
  · have h1 := sizeOf_list_append (parentsOf node).reverse rest
    rw [sizeOf_list_reverse] at h1
    have h2 := parentsOf_sizeOf node
    simp only [List.cons.sizeOf_spec]
    omega

/-- util.py lines 27-31, the inner `for parent in node.parents` loop of the
second phase: a parent whose remaining count is 1 is appended to the
childless stack (head of our list), otherwise its count is decremented;
a missing count is a KeyError. -/
def processParents (counts : Counts) (ps : List GNode) (childless : List GNode) :
    Option (Counts × List GNode) :=
  match ps with
  | [] => some (counts, childless)
  | p :: rest =>
    match alook counts p with
    | none => none
    | some c =>
      if c = 1 then processParents counts rest (p :: childless)
      else processParents (aset counts p (c - 1)) rest childless

theorem processParents_sizeOf : ∀ (ps : List GNode) (m : Counts)
    (cl : List GNode) (m' : Counts) (cl' : List GNode),
    processParents m ps cl = some (m', cl') →
    sizeOf cl' + 1 ≤ sizeOf ps + sizeOf cl := by
  intro ps
  induction ps with
  | nil =>
    intro m cl m' cl' h
    simp only [processParents, Option.some.injEq, Prod.mk.injEq] at h
    obtain ⟨h1, h2⟩ := h
    subst h2
    simp only [List.nil.sizeOf_spec]
    omega
  | cons p rest ih =>
    intro m cl m' cl' h
    rw [processParents] at h
    split at h
    · simp at h
    · split at h
      · have := ih _ _ _ _ h
        simp only [List.cons.sizeOf_spec] at this ⊢
        omega
      · have := ih _ _ _ _ h
        simp only [List.cons.sizeOf_spec]
        omega

/-- util.py lines 23-31, the second loop of `toposort`: pop a childless node,
yield it, then run the parent loop.  The generator's emissions are collected
into the returned list; a KeyError is `none`. -/
def emitPhase (counts : Counts) (childless : List GNode) :
    Option (List GNode) :=
  match childless with
  | [] => some []
  | node :: rest =>
    match h : processParents counts (parentsOf node) rest with
    | none => none
    | some (counts', childless') =>
      (emitPhase counts' childless').map (fun l => node :: l)
termination_by sizeOf childless
decreasing_by
  have h1 := processParents_sizeOf _ _ _ _ _ h
  have h2 := parentsOf_sizeOf node
  simp only [List.cons.sizeOf_spec]
  omega

/-- util.py lines 12-31, `toposort(end_node)`: run the counting walk, then
emit from the childless stack seeded with the end node. -/
def toposort (end_node : GNode) : Option (List GNode) :=
  emitPhase (countPhase [] [end_node]) [end_node]

/-- The inner `for argnum, parent in zip(argnums, node.parents)` loop of
core.py `backward_pass` (lines 48-59): look up the rule, compute the parent
contribution and accumulate it into `outgrads`; a missing rule is the
KeyError from `primitive_vjps[fun][argnum]`. -/
def processNodeGrads (env : Env) (reg : Registry) (og : PyVal) (node : GNode) :
    List (Nat × GNode) → List (GNode × PyVal) → Option (List (GNode × PyVal))
  | [], ogs => some ogs
  | (argnum, parent) :: rest, ogs =>
    match reg (nodeFid node) argnum with
    | none => none
    | some rule =>
      let parent_grad := rule og (nodeVal node) (nodeArgs node) (nodeKW node)
      processNodeGrads env reg og node rest
        (aset ogs parent (add_outgrads env (alook ogs parent) parent_grad))

/-- The main loop of core.py `backward_pass`: iterate the topological order,
pop each node's accumulated cotangent (KeyError when absent), process its
parents, and remember the popped value; after the loop the last popped
`outgrad` is returned (NameError were the loop empty). -/
def bpLoop (env : Env) (reg : Registry) :
    List GNode → List (GNode × PyVal) → Option PyVal → Except Err PyVal
  | [], _, none => .error .nameError
  | [], _, some og => .ok og
  | node :: rest, ogs, _ =>
    match alook ogs node with
    | none => .error .keyError
    | some og =>
      match processNodeGrads env reg og node
          ((nodeArgnums node).zip (parentsOf node)) (aremove ogs node) with
      | none => .error .missingVJP
      | some ogs' => bpLoop env reg rest ogs' (some og)

/-- The `outgrads` dict produced by running the `backward_pass` loop over a
prefix of the topological order (used to state what the final iteration
returns). -/
def bpSteps (env : Env) (reg : Registry) :
    List GNode → List (GNode × PyVal) → Option (List (GNode × PyVal))
  | [], ogs => some ogs
  | node :: rest, ogs =>
    match alook ogs node with
    | none => none
    | some og =>
      match processNodeGrads env reg og node
          ((nodeArgnums node).zip (parentsOf node)) (aremove ogs node) with
      | none => none
      | some ogs' => bpSteps env reg rest ogs'

/-- core.py lines 38-60, `backward_pass(g, end_node)`: seed
`outgrads = {end_node: g}` and run the loop over `toposort(end_node)`. -/
def backward_pass (env : Env) (reg : Registry) (g : PyVal) (end_node : GNode) :
    Except Err PyVal :=
  match toposort end_node with
  | none => .error .keyError
  | some order => bpLoop env reg order [(end_node, g)] none

/-- core.py lines 18-36, `make_vjp(fun, x)`: trace the function from a fresh
root; when the end node is `None` the vjp closure ignores `g` and returns
`np.zeros_like(x)`, otherwise it runs `backward_pass(g, end_node)`.  The
trace-stack counter is threaded like in `trace`. -/
def make_vjp (env : Env) (reg : Registry) (f : PyVal → Except Err PyVal)
    (x : PyVal) (top : Int) :
    Int × Except Err ((PyVal → Except Err PyVal) × PyVal) :=
  match trace env GNode.root f x top with
  | (top', .error e) => (top', .error e)
  | (top', .ok (end_value, none)) =>
    (top', .ok (fun _ => .ok (env.zerosLike x), end_value))
  | (top', .ok (end_value, some end_node)) =>
    (top', .ok (fun g => backward_pass env reg g end_node, end_value))

/-- Reachability along parent edges from a node of the recorded graph:
`Reach s n` holds when `n` is `s` itself or an iterated parent of `s`. -/
inductive Reach : GNode → GNode → Prop
  | refl (n : GNode) : Reach n n
  | step {s n p : GNode} : Reach s n → p ∈ parentsOf n → Reach s p

/-- A concrete environment for the witness theorems: raw type 0 has a
registered box type, raw type 1 does not; the backend functions are simple
executable stand-ins. -/
def sampleEnv : Env where
  rawFun := fun fid args _ => .raw 0 (fid + args.length)
  boxedType := fun t => t = 0
  zerosLike := fun x =>
    match x with
    | .raw t _ => .raw t 0
    | .box _ _ _ => .raw 0 0
  add := fun a b =>
    match a, b with
    | .raw t va, .raw _ vb => .raw t (va + vb)
    | a, _ => a

/-- A concrete total registry for the witness theorems: every rule passes the
incoming cotangent through. -/
def sampleReg : Registry := fun _ _ => some (fun g _ _ _ => g)

theorem getval_not_box : ∀ y : PyVal, isbox (getval y) = false
  | .raw _ _ => by rw [getval]; rfl
  | .box v _ _ => by rw [getval]; exact getval_not_box v

theorem getval_idem : ∀ y : PyVal, getval (getval y) = getval y
  | .raw _ _ => rfl
  | .box v _ _ => by rw [getval]; exact getval_idem v

/-- C10: `getval` never returns a box; it is the identity on non-box (raw)
values; and it is idempotent. -/
theorem claim_C10 (x : PyVal) (ty : Nat) (v : Int) :
    isbox (getval x) = false ∧ getval (.raw ty v) = .raw ty v ∧
      getval (getval x) = getval x :=
  ⟨getval_not_box x, rfl, getval_idem x⟩

/-- C8: a `notrace_primitive` wrapper calls the raw function on the arguments
with every box recursively stripped by `getval` (so the values passed on are
never boxes, whatever the nesting depth), records nothing, and hands back the
raw function's result unboxed whenever the raw function produces raw
values. -/
theorem claim_C8 (env : Env) (fid : Nat) (args : List PyVal) (kwargs : KW) :
    notrace_apply env fid args kwargs =
        env.rawFun fid (args.map getval) kwargs ∧
      (∀ a ∈ args.map getval, isbox a = false) ∧
      ((∀ l k, isbox (env.rawFun fid l k) = false) →
        isbox (notrace_apply env fid args kwargs) = false) := by
  refine ⟨rfl, ?_, fun h => h _ _⟩
  intro a ha
  obtain ⟨b, _, rfl⟩ := List.mem_map.mp ha
  exact getval_not_box b

theorem claim_C8_witness :
    (∀ l k, isbox (sampleEnv.rawFun 3 l k) = false) ∧
      isbox (notrace_apply sampleEnv 3
        [PyVal.box (.box (.raw 0 2) 0 .root) 1 .root] 0) = false :=
  ⟨fun _ _ => rfl,
    (claim_C8 sampleEnv 3 [PyVal.box (.box (.raw 0 2) 0 .root) 1 .root] 0).2.2
      (fun _ _ => rfl)⟩

/-- C9: `new_box` returns a box built from the registered mapping exactly when
`type(value)` has one (with every box type self-registered), raises the
`UnsupportedType` error exactly otherwise, and the error surfaces unchanged
from `trace` and `make_vjp` when the traced input is unboxable. -/
theorem claim_C9 (env : Env) (reg : Registry) (value x : PyVal) (tid : Int)
    (node sn : GNode) (f : PyVal → Except Err PyVal) (top : Int) :
    (boxable env value = true →
      new_box env value tid node = .ok (.box value tid node)) ∧
    (boxable env value = false →
      new_box env value tid node = .error (.unsupportedType (pyTypeOf value))) ∧
    (boxable env x = false →
      (trace env sn f x top).2 = .error (.unsupportedType (pyTypeOf x)) ∧
      (make_vjp env reg f x top).2 = .error (.unsupportedType (pyTypeOf x))) := by
  refine ⟨fun hb => ?_, fun hb => ?_, fun hb => ?_⟩
  · rw [new_box, if_pos hb]
  · rw [new_box, if_neg (by rw [hb]; exact Bool.false_ne_true)]
  · have htr : trace env sn f x top =
        (top + 1, .error (.unsupportedType (pyTypeOf x))) := by
      rw [trace, new_box, if_neg (by rw [hb]; exact Bool.false_ne_true)]
    have htr2 : trace env GNode.root f x top =
        (top + 1, .error (.unsupportedType (pyTypeOf x))) := by
      rw [trace, new_box, if_neg (by rw [hb]; exact Bool.false_ne_true)]
    refine ⟨by rw [htr], ?_⟩
    rw [make_vjp, htr2]

theorem claim_C9_witness :
    boxable sampleEnv (.raw 1 5) = false ∧
      (make_vjp sampleEnv sampleReg (fun b => .ok b) (.raw 1 5) (-1)).2 =
        .error (.unsupportedType 1) :=
  ⟨by decide,
    ((claim_C9 sampleEnv sampleReg (.raw 1 5) (.raw 1 5) 0 .root .root
      (fun b => .ok b) (-1)).2.2 (by decide)).2⟩

/-- C1 (code bug): with a user function that raises, a top-level `make_vjp`
call started at trace-stack depth -1 leaves the counter at 0 instead of
restoring -1 — the `@contextmanager` generator of `TraceStack.new_trace` has
no try/finally, so the decrement is skipped on the exceptional exit path —
while the normal path does restore the depth. -/
theorem claim_C1 :
    (make_vjp sampleEnv sampleReg (fun _ => .error (.userError 0))
        (.raw 0 3) (-1)).1 = 0 ∧
      (make_vjp sampleEnv sampleReg (fun b => .ok b) (.raw 0 3) (-1)).1 = -1 ∧
      (0 : Int) ≠ -1 :=
  ⟨rfl, rfl, by decide⟩

/-- C2: when the trace reports `end_node = None`, `make_vjp` returns a vjp
closure that yields `zeros_like(x)` (the input's zero cotangent, not the
cotangent argument's) for every `g`, and the closure is the same whatever the
VJP registry holds — no rule is consulted. -/
theorem claim_C2 (env : Env) (reg reg' : Registry)
    (f : PyVal → Except Err PyVal) (x : PyVal) (top : Int) (ev : PyVal)
    (h : (trace env .root f x top).2 = .ok (ev, none)) :
    ∃ vjp, (make_vjp env reg f x top).2 = .ok (vjp, ev) ∧
      (∀ g, vjp g = .ok (env.zerosLike x)) ∧
      (make_vjp env reg' f x top).2 = .ok (vjp, ev) := by
  have hpair : trace env GNode.root f x top =
      ((trace env GNode.root f x top).1, Except.ok (ev, none)) := by
    rw [← h]
  refine ⟨fun _ => .ok (env.zerosLike x), ?_, fun g => rfl, ?_⟩
  · rw [make_vjp, hpair]
  · rw [make_vjp, hpair]

theorem claim_C2_witness :
    (trace sampleEnv .root (fun _ => .ok (.raw 0 7)) (.raw 0 3) (-1)).2 =
        .ok (PyVal.raw 0 7, none) ∧
      ∃ vjp,
        (make_vjp sampleEnv sampleReg (fun _ => .ok (.raw 0 7))
            (.raw 0 3) (-1)).2 = .ok (vjp, PyVal.raw 0 7) ∧
        (∀ g, vjp g = .ok (sampleEnv.zerosLike (.raw 0 3))) ∧
        (make_vjp sampleEnv sampleReg (fun _ => .ok (.raw 0 7))
            (.raw 0 3) (-1)).2 = .ok (vjp, PyVal.raw 0 7) :=
  ⟨rfl, claim_C2 sampleEnv sampleReg sampleReg (fun _ => .ok (.raw 0 7))
    (.raw 0 3) (-1) (.raw 0 7) rfl⟩

/-- C5 counterexample: a traced function returning a box of a lower trace id.
`trace` hands the box back unchanged as the first component — not its
unwrapped value as the claim states. -/
theorem claim_C5_counterexample :
    (trace sampleEnv .root (fun _ => .ok (PyVal.box (.raw 0 7) 0 .root))
        (.raw 0 3) 5).2 = .ok (PyVal.box (.raw 0 7) 0 .root, none) ∧
      isbox (PyVal.box (.raw 0 7) 0 .root) = true ∧
      getval (PyVal.box (.raw 0 7) 0 .root) = .raw 0 7 ∧
      PyVal.box (.raw 0 7) 0 .root ≠ PyVal.raw 0 7 :=
  ⟨rfl, rfl, rfl, fun h => PyVal.noConfusion h⟩

/-- C5 (amended): when `fun`'s result is a box carrying the freshly acquired
trace id, `trace` returns `(end_box.value, end_box.node)`; otherwise it
returns the pair of the result **as-is** (still boxed when it is a box at a
lower trace id) and `None`. -/
theorem claim_C5 (env : Env) (sn : GNode) (f : PyVal → Except Err PyVal)
    (x : PyVal) (top : Int) (end_box : PyVal)
    (hbox : boxable env x = true)
    (hf : f (.box x (top + 1) sn) = .ok end_box) :
    (isbox end_box = true ∧ boxTid end_box = top + 1 →
      (trace env sn f x top).2 = .ok (boxVal end_box, some (boxNode end_box))) ∧
    (¬ (isbox end_box = true ∧ boxTid end_box = top + 1) →
      (trace env sn f x top).2 = .ok (end_box, none)) := by
  have hnb : new_box env x (top + 1) sn = .ok (.box x (top + 1) sn) := by
    rw [new_box, if_pos hbox]
  constructor
  · intro hc
    rw [trace, hnb]
    simp only [hf]
    rw [if_pos (by simpa [boxTid] using hc)]
  · intro hc
    rw [trace, hnb]
    simp only [hf]
    rw [if_neg (by simpa [boxTid] using hc)]

theorem claim_C5_witness :
    boxable sampleEnv (.raw 0 3) = true ∧
      (fun b => (.ok b : Except Err PyVal)) (.box (.raw 0 3) (4 + 1) .root) =
        .ok (.box (.raw 0 3) (4 + 1) .root) ∧
      (isbox (PyVal.box (.raw 0 3) (4 + 1) .root) = true ∧
          boxTid (PyVal.box (.raw 0 3) (4 + 1) .root) = 4 + 1 →
        (trace sampleEnv .root (fun b => .ok b) (.raw 0 3) 4).2 =
          .ok (boxVal (PyVal.box (.raw 0 3) (4 + 1) .root),
            some (boxNode (PyVal.box (.raw 0 3) (4 + 1) .root)))) :=
  ⟨by decide, rfl,
    (claim_C5 sampleEnv .root (fun b => .ok b) (.raw 0 3) 4
      (.box (.raw 0 3) (4 + 1) .root) (by decide) rfl).1⟩

theorem getD_mem (l : List PyVal) : ∀ j, j < l.length → l.getD j default ∈ l := by
  induction l with
  | nil => intro j hj; simp at hj
  | cons a rest ih =>
    intro j hj
    cases j with
    | zero => simp
    | succ j' =>
      rw [List.getD_cons_succ]
      exact List.mem_cons_of_mem _ (ih j' (by simp at hj; omega))

/-- C3: when at least one positional argument is boxed, the wrapped primitive
computes the answer by calling the wrapped function itself (not the raw one)
on the arguments with exactly the top-trace-id boxes unwrapped, builds the
node with recipe `(f_wrapped, ans, argvals, kwargs, argnums)` and parents the
nodes of the top boxes in argument order, and returns
`new_box(ans, top_id, node)` (propagating any exception of the recursive
call). -/
theorem claim_C3 (env : Env) (fid : Nat) (args : List PyVal) (kwargs : KW)
    (tb : List (Nat × PyVal)) (tid : Int)
    (hf : find_top_boxed_args args = (tb, tid)) (hne : tb ≠ []) :
    prim_apply env fid args kwargs =
      match prim_apply env fid
          (subvals args (tb.map (fun p => (p.1, boxVal p.2)))) kwargs with
      | .error e => .error e
      | .ok ans => new_box env ans tid
          (.node fid ans (subvals args (tb.map (fun p => (p.1, boxVal p.2))))
            kwargs (tb.map (fun p => p.1)) (tb.map (fun p => boxNode p.2))) := by
  rw [prim_apply]
  simp only [hf]
  rw [dif_neg hne]

theorem claim_C3_witness :
    find_top_boxed_args [PyVal.box (.raw 0 4) 0 .root] =
        ([(0, PyVal.box (.raw 0 4) 0 .root)], 0) ∧
      ([(0, PyVal.box (.raw 0 4) 0 .root)] : List (Nat × PyVal)) ≠ [] ∧
      prim_apply sampleEnv 9 [PyVal.box (.raw 0 4) 0 .root] 0 =
        match prim_apply sampleEnv 9
            (subvals [PyVal.box (.raw 0 4) 0 .root]
              ([(0, PyVal.box (.raw 0 4) 0 .root)].map
                (fun p => (p.1, boxVal p.2)))) 0 with
        | .error e => .error e
        | .ok ans => new_box sampleEnv ans 0
            (.node 9 ans
              (subvals [PyVal.box (.raw 0 4) 0 .root]
                ([(0, PyVal.box (.raw 0 4) 0 .root)].map
                  (fun p => (p.1, boxVal p.2)))) 0
              ([(0, PyVal.box (.raw 0 4) 0 .root)].map (fun p => p.1))
              ([(0, PyVal.box (.raw 0 4) 0 .root)].map (fun p => boxNode p.2))) :=
  ⟨rfl, fun h => List.noConfusion h,
    claim_C3 sampleEnv 9 [PyVal.box (.raw 0 4) 0 .root] 0
      [(0, PyVal.box (.raw 0 4) 0 .root)] 0 rfl (fun h => List.noConfusion h)⟩

/-- C4: `find_top_boxed_args` returns exactly the `(argnum, box)` pairs of
boxed positional arguments whose trace id equals the maximum trace id among
all boxed positional arguments, in increasing argument order, and when no
positional argument is boxed the primitive wrapper calls the raw function
directly on the arguments and returns its result unwrapped. -/
theorem claim_C4 (env : Env) (fid : Nat) (args : List PyVal) (kwargs : KW)
    (tb : List (Nat × PyVal)) (tid : Int)
    (hf : find_top_boxed_args args = (tb, tid)) :
    (∀ p ∈ tb, p.1 < args.length ∧ p.2 = args.getD p.1 default ∧
      isbox p.2 = true ∧ boxTid p.2 = tid) ∧
    (∀ j, j < args.length → isbox (args.getD j default) = true →
      boxTid (args.getD j default) ≤ tid) ∧
    (∀ j, j < args.length → isbox (args.getD j default) = true →
      boxTid (args.getD j default) = tid → (j, args.getD j default) ∈ tb) ∧
    tb.Pairwise (fun p q => p.1 < q.1) ∧
    ((∀ a ∈ args, isbox a = false) →
      prim_apply env fid args kwargs = .ok (env.rawFun fid args kwargs)) := by
  have hspec := find_top_spec args
  rw [hf] at hspec
  have htb : tb = filtTop 0 (runMaxTid (-1) args) args :=
    congrArg Prod.fst hspec
  have htid : tid = runMaxTid (-1) args := congrArg Prod.snd hspec
  refine ⟨?_, ?_, ?_, ?_, ?_⟩
  · intro p hp
    have hx : p ∈ (find_top_boxed_args args).1 := by rw [hf]; exact hp
    have := ftba_mem_facts hx
    rw [hf] at this
    exact this
  · intro j hj hbx
    rw [htid]
    exact runMaxTid_ge_mem args (-1) j hj hbx
  · intro j hj hbx hbt
    rw [htb]
    refine (mem_filtTop args 0 (runMaxTid (-1) args) _).mpr
      ⟨j, hj, by simp, hbx, ?_⟩
    rw [← htid]
    exact hbt
  · have := ftba_pairwise args
    rw [hf] at this
    exact this
  · intro hnone
    have htb0 : tb = [] := by
      rcases List.eq_nil_or_concat tb with h0 | ⟨l, p, rfl⟩
      · exact h0
      · exfalso
        have hp : p ∈ l.concat p := by simp
        have hx : p ∈ (find_top_boxed_args args).1 := by rw [hf]; exact hp
        have hfacts := ftba_mem_facts hx
        have hmem := getD_mem args p.1 hfacts.1
        have := hnone _ hmem
        rw [← hfacts.2.1] at this
        rw [hfacts.2.2.1] at this
        exact Bool.noConfusion this
    rw [prim_apply]
    simp only [hf, htb0]
    simp

section ToposortCorrectness

/-- The keys of an association-list dict. -/
def akeys {β : Type} (m : List (GNode × β)) : List GNode := m.map Prod.fst

theorem alook_aset_self {β : Type} (m : List (GNode × β)) (k : GNode) (v : β) :
    alook (aset m k v) k = some v := by
  induction m with
  | nil => simp [aset, alook]
  | cons kv rest ih =>
    obtain ⟨k', w⟩ := kv
    by_cases hk : k' = k
    · rw [aset, if_pos hk, alook, if_pos rfl]
    · rw [aset, if_neg hk, alook, if_neg hk]
      exact ih

theorem alook_aset_ne {β : Type} (m : List (GNode × β)) (k n : GNode) (v : β)
    (hne : n ≠ k) : alook (aset m k v) n = alook m n := by
  induction m with
  | nil =>
    show alook [(k, v)] n = alook [] n
    simp only [alook]
    rw [if_neg (fun h => hne h.symm)]
  | cons kv rest ih =>
    obtain ⟨k', w⟩ := kv
    by_cases hk : k' = k
    · rw [aset, if_pos hk, alook, if_neg (fun h => hne h.symm), alook,
        if_neg (fun h => hne ((hk ▸ h).symm))]
    · rw [aset, if_neg hk, alook, alook]
      by_cases hn : k' = n
      · rw [if_pos hn, if_pos hn]
      · rw [if_neg hn, if_neg hn]
        exact ih

theorem alook_aremove_ne {β : Type} (m : List (GNode × β)) (k n : GNode)
    (hne : n ≠ k) : alook (aremove m k) n = alook m n := by
  induction m with
  | nil => rfl
  | cons kv rest ih =>
    obtain ⟨k', w⟩ := kv
    by_cases hk : k' = k
    · rw [aremove, if_pos hk, alook, if_neg (fun h => hne ((hk ▸ h).symm))]
    · rw [aremove, if_neg hk, alook, alook]
      by_cases hn : k' = n
      · rw [if_pos hn, if_pos hn]
      · rw [if_neg hn, if_neg hn]
        exact ih

theorem alook_eq_none_iff {β : Type} (m : List (GNode × β)) (n : GNode) :
    alook m n = none ↔ n ∉ akeys m := by
  induction m with
  | nil => simp [alook, akeys]
  | cons kv rest ih =>
    obtain ⟨k', w⟩ := kv
    rw [alook, akeys]
    by_cases hk : k' = n
    · rw [if_pos hk]
      simp [hk]
    · rw [if_neg hk]
      simp only [List.map_cons, List.mem_cons]
      rw [akeys] at ih
      constructor
      · intro h hc
        rcases hc with hc | hc
        · exact hk hc.symm
        · exact (ih.mp h) hc
      · intro h
        exact ih.mpr (fun hc => h (Or.inr hc))

theorem alook_isSome_iff {β : Type} (m : List (GNode × β)) (n : GNode) :
    (alook m n).isSome = true ↔ n ∈ akeys m := by
  rcases ho : alook m n with _ | v
  · simp [((alook_eq_none_iff m n).mp ho)]
  · have : ¬ alook m n = none := by rw [ho]; simp
    rw [alook_eq_none_iff] at this
    simp [not_not.mp this]

theorem akeys_aset_mem {β : Type} (m : List (GNode × β)) (k : GNode) (v : β)
    (hmem : k ∈ akeys m) : akeys (aset m k v) = akeys m := by
  induction m with
  | nil => simp [akeys] at hmem
  | cons kv rest ih =>
    obtain ⟨k', w⟩ := kv
    by_cases hk : k' = k
    · rw [aset, if_pos hk, akeys, akeys]
      simp [hk]
    · rw [aset, if_neg hk, akeys, akeys]
      simp only [List.map_cons, List.cons.injEq, true_and]
      have hm2 : k ∈ akeys rest := by
        rw [akeys] at hmem
        simp only [List.map_cons, List.mem_cons] at hmem
        rcases hmem with h | h
        · exact absurd h.symm hk
        · exact h
      exact ih hm2

/-- The number of still-unprocessed in-edges of `n`: the sum over the
recorded (reachable) nodes `K` not yet emitted (`E`) of the number of times
`n` occurs among their parents. -/
def rem (K E : List GNode) (n : GNode) : Nat :=
  match K with
  | [] => 0
  | c :: K' => (if c ∈ E then 0 else (parentsOf c).count n) + rem K' E n

theorem rem_congr_E (K : List GNode) (node : GNode) (E : List GNode)
    (n : GNode) (hnode : node ∉ K) : rem K (node :: E) n = rem K E n := by
  induction K with
  | nil => rfl
  | cons c K' ih =>
    have hc : c ≠ node := fun h => hnode (by rw [h]; exact List.mem_cons_self _ _)
    rw [rem, rem, ih (fun h => hnode (List.mem_cons_of_mem _ h))]
    have : (c ∈ node :: E) ↔ (c ∈ E) := by
      simp [List.mem_cons, hc]
    by_cases he : c ∈ E
    · rw [if_pos he, if_pos (this.mpr he)]
    · rw [if_neg he, if_neg (fun h => he (this.mp h))]

theorem rem_extend (K : List GNode) (node : GNode) (E : List GNode) (n : GNode)
    (hK : K.Nodup) (hmem : node ∈ K) (hnE : node ∉ E) :
    rem K E n = rem K (node :: E) n + (parentsOf node).count n := by
  induction K with
  | nil => simp at hmem
  | cons c K' ih =>
    rcases List.mem_cons.mp hmem with hc | hc
    · subst hc
      have hnotin : node ∉ K' := (List.nodup_cons.mp hK).1
      rw [rem, rem, if_neg hnE, if_pos (List.mem_cons_self _ _),
        rem_congr_E K' node E n hnotin]
      omega
    · have hcne : c ≠ node := fun h => (List.nodup_cons.mp hK).1 (h.symm ▸ hc)
      rw [rem, rem, ih (List.nodup_cons.mp hK).2 hc]
      have hiff : (c ∈ node :: E) ↔ (c ∈ E) := by
        simp [List.mem_cons, hcne]
      by_cases he : c ∈ E
      · rw [if_pos he, if_pos (hiff.mpr he)]
        omega
      · rw [if_neg he, if_neg (fun h => he (hiff.mp h))]
        omega

theorem rem_pos_exists (K E : List GNode) (n : GNode) (h : 0 < rem K E n) :
    ∃ c ∈ K, c ∉ E ∧ n ∈ parentsOf c := by
  induction K with
  | nil => simp [rem] at h
  | cons c K' ih =>
    rw [rem] at h
    by_cases he : c ∈ E
    · rw [if_pos he] at h
      obtain ⟨c', hc1, hc2, hc3⟩ := ih (by omega)
      exact ⟨c', List.mem_cons_of_mem _ hc1, hc2, hc3⟩
    · rw [if_neg he] at h
      by_cases hcount : 0 < (parentsOf c).count n
      · exact ⟨c, List.mem_cons_self _ _, he, List.count_pos_iff_mem.mp hcount⟩
      · obtain ⟨c', hc1, hc2, hc3⟩ := ih (by omega)
        exact ⟨c', List.mem_cons_of_mem _ hc1, hc2, hc3⟩

theorem rem_pos_of (K E : List GNode) (c n : GNode) (hc : c ∈ K) (he : c ∉ E)
    (hp : n ∈ parentsOf c) : 0 < rem K E n := by
  induction K with
  | nil => simp at hc
  | cons d K' ih =>
    rw [rem]
    rcases List.mem_cons.mp hc with hd | hd
    · subst hd
      rw [if_neg he]
      have := List.count_pos_iff_mem.mpr hp
      omega
    · have := ih hd
      omega

theorem parent_sizeOf_lt (p n : GNode) (hp : p ∈ parentsOf n) :
    sizeOf p < sizeOf n := by
  cases n with
  | root => simp [parentsOf] at hp
  | node f v a k an ps =>
    simp only [parentsOf] at hp
    have h1 : sizeOf p < sizeOf ps := List.sizeOf_lt_of_mem hp
    simp only [GNode.node.sizeOf_spec]
    omega

theorem reach_sizeOf (s n : GNode) (h : Reach s n) : sizeOf n ≤ sizeOf s := by
  induction h with
  | refl => exact le_refl _
  | step hr hp ih => exact le_of_lt (lt_of_lt_of_le (parent_sizeOf_lt _ _ hp) ih)

theorem reach_trans (a b c : GNode) (h1 : Reach a b) (h2 : Reach b c) :
    Reach a c := by
  induction h2 with
  | refl => exact h1
  | step hr hp ih => exact Reach.step ih hp

theorem reach_ne_exists_consumer (e n : GNode) (h : Reach e n) (hne : n ≠ e) :
    ∃ c, Reach e c ∧ n ∈ parentsOf c := by
  cases h with
  | refl => exact absurd rfl hne
  | step hr hp => exact ⟨_, hr, hp⟩

theorem end_no_consumer (e c : GNode) (hreach : Reach e c)
    (hp : e ∈ parentsOf c) : False := by
  have h1 := reach_sizeOf e c hreach
  have h2 := parent_sizeOf_lt e c hp
  omega

/-- The count stored for `n` (0 when absent). -/
def cnt (m : Counts) (n : GNode) : Nat := (alook m n).getD 0

theorem count_cons_node (node n : GNode) (rest : List GNode) :
    (node :: rest).count n = rest.count n + (if n = node then 1 else 0) := by
  rw [List.count_cons]
  by_cases h : node = n
  · rw [if_pos (by rw [h]; exact beq_self_eq_true n), if_pos h.symm]
  · rw [if_neg (by simpa using h), if_neg (fun hh => h hh.symm)]

/-- Invariant of the counting walk: every pending increment of a node's count
is an occurrence on the stack; the final count of `n` is one for the initial
push of the end node plus one per in-edge from a visited node. -/
def CountInv (e : GNode) (m : Counts) (stack : List GNode) : Prop :=
  (akeys m).Nodup ∧
  (∀ n : GNode, cnt m n + stack.count n =
    (if n = e then 1 else 0) + rem (akeys m) [] n) ∧
  (∀ n ∈ akeys m, Reach e n) ∧ (∀ n ∈ stack, Reach e n) ∧
  (∀ c ∈ akeys m, ∀ p ∈ parentsOf c, p ∈ akeys m ∨ p ∈ stack)

theorem countPhase_spec (e : GNode) : ∀ (fuel : Nat) (stack : List GNode)
    (m : Counts), sizeOf stack ≤ fuel → CountInv e m stack →
    CountInv e (countPhase m stack) [] ∧
    (∀ n ∈ akeys m, n ∈ akeys (countPhase m stack)) ∧
    (∀ n ∈ stack, n ∈ akeys (countPhase m stack)) := by
  intro fuel
  induction fuel with
  | zero =>
    intro stack m hsz hinv
    cases stack with
    | nil =>
      rw [countPhase]
      exact ⟨hinv, fun n hn => hn, fun n hn => absurd hn (List.not_mem_nil n)⟩
    | cons node rest =>
      simp only [List.cons.sizeOf_spec] at hsz
      omega
  | succ fuel ih =>
    intro stack m hsz hinv
    cases stack with
    | nil =>
      rw [countPhase]
      exact ⟨hinv, fun n hn => hn, fun n hn => absurd hn (List.not_mem_nil n)⟩
    | cons node rest =>
      obtain ⟨hnd, hcount, hkr, hsr, hclose⟩ := hinv
      have hszr : sizeOf rest ≤ fuel := by
        simp only [List.cons.sizeOf_spec] at hsz
        omega
      cases halook : alook m node with
      | some c =>
        have hred : countPhase m (node :: rest) =
            countPhase (aset m node (c + 1)) rest := by
          rw [countPhase, halook]
        have hnodemem : node ∈ akeys m :=
          (alook_isSome_iff m node).mp (by rw [halook]; rfl)
        have hkeys : akeys (aset m node (c + 1)) = akeys m :=
          akeys_aset_mem m node (c + 1) hnodemem
        have hinv' : CountInv e (aset m node (c + 1)) rest := by
          refine ⟨by rw [hkeys]; exact hnd, ?_, ?_, ?_, ?_⟩
          · intro n
            rw [hkeys]
            have hold := hcount n
            rw [count_cons_node] at hold
            by_cases hn : n = node
            · rw [if_pos hn] at hold
              have e1 : alook (aset m node (c + 1)) n = some (c + 1) := by
                rw [hn]; exact alook_aset_self m node (c + 1)
              have e2 : alook m n = some c := by rw [hn]; exact halook
              rw [cnt, e1, Option.getD_some]
              rw [cnt, e2, Option.getD_some] at hold
              omega
            · rw [if_neg hn] at hold
              rw [cnt, alook_aset_ne m node n (c + 1) hn]
              rw [cnt] at hold
              omega
          · intro n hn
            rw [hkeys] at hn
            exact hkr n hn
          · intro n hn
            exact hsr n (List.mem_cons_of_mem _ hn)
          · intro cc hc p hp
            rw [hkeys] at hc ⊢
            rcases hclose cc hc p hp with h | h
            · exact Or.inl h
            · rcases List.mem_cons.mp h with h2 | h2
              · exact Or.inl (h2 ▸ hnodemem)
              · exact Or.inr h2
        have := ih rest (aset m node (c + 1)) hszr hinv'
        rw [hred]
        refine ⟨this.1, ?_, ?_⟩
        · intro n hn
          exact this.2.1 n (by rw [hkeys]; exact hn)
        · intro n hn
          rcases List.mem_cons.mp hn with h2 | h2
          · exact this.2.1 n (by rw [hkeys]; exact h2 ▸ hnodemem)
          · exact this.2.2 n h2
      | none =>
        have hred : countPhase m (node :: rest) =
            countPhase ((node, 1) :: m) ((parentsOf node).reverse ++ rest) := by
          rw [countPhase, halook]
        have hnodenmem : node ∉ akeys m := (alook_eq_none_iff m node).mp halook
        have hkeys : akeys ((node, 1) :: m) = node :: akeys m := rfl
        have hreachnode : Reach e node := hsr node (List.mem_cons_self _ _)
        have hszs : sizeOf ((parentsOf node).reverse ++ rest) ≤ fuel := by
          have h1 := sizeOf_list_append (parentsOf node).reverse rest
          rw [sizeOf_list_reverse] at h1
          have h2 := parentsOf_sizeOf node
          simp only [List.cons.sizeOf_spec] at hsz
          omega
        have hinv' : CountInv e ((node, 1) :: m)
            ((parentsOf node).reverse ++ rest) := by
          refine ⟨?_, ?_, ?_, ?_, ?_⟩
          · rw [hkeys]
            exact List.nodup_cons.mpr ⟨hnodenmem, hnd⟩
          · intro n
            have hold := hcount n
            rw [count_cons_node] at hold
            have hccnt : ((parentsOf node).reverse ++ rest).count n =
                (parentsOf node).count n + rest.count n := by
              rw [List.count_append, List.count_reverse]
            rw [hccnt, hkeys, rem, if_neg (List.not_mem_nil node)]
            by_cases h : n = node
            · have e1 : alook ((node, 1) :: m) n = some 1 := by
                rw [alook, if_pos h.symm]
              have e2 : alook m n = none := by rw [h]; exact halook
              rw [cnt, e1, Option.getD_some]
              rw [if_pos h, cnt, e2, Option.getD_none] at hold
              omega
            · have e1 : alook ((node, 1) :: m) n = alook m n := by
                rw [alook, if_neg (fun hh => h hh.symm)]
              rw [cnt, e1]
              rw [if_neg h, cnt] at hold
              omega
          · intro n hn
            rw [hkeys] at hn
            rcases List.mem_cons.mp hn with h2 | h2
            · exact h2 ▸ hreachnode
            · exact hkr n h2
          · intro n hn
            rcases List.mem_append.mp hn with h2 | h2
            · exact Reach.step hreachnode (List.mem_reverse.mp h2)
            · exact hsr n (List.mem_cons_of_mem _ h2)
          · intro cc hc p hp
            rw [hkeys] at hc ⊢
            rcases List.mem_cons.mp hc with h2 | h2
            · subst h2
              exact Or.inr (List.mem_append.mpr
                (Or.inl (List.mem_reverse.mpr hp)))
            · rcases hclose cc h2 p hp with h3 | h3
              · exact Or.inl (List.mem_cons_of_mem _ h3)
              · rcases List.mem_cons.mp h3 with h4 | h4
                · exact Or.inl (h4 ▸ List.mem_cons_self _ _)
                · exact Or.inr (List.mem_append.mpr (Or.inr h4))
        have := ih ((parentsOf node).reverse ++ rest) ((node, 1) :: m) hszs hinv'
        rw [hred]
        refine ⟨this.1, ?_, ?_⟩
        · intro n hn
          exact this.2.1 n (by rw [hkeys]; exact List.mem_cons_of_mem _ hn)
        · intro n hn
          rcases List.mem_cons.mp hn with h2 | h2
          · exact this.2.1 n (by rw [hkeys]; exact h2 ▸ List.mem_cons_self _ _)
          · exact this.2.2 n (List.mem_append.mpr (Or.inr h2))

theorem countPhase_conclusion (e : GNode) :
    (akeys (countPhase [] [e])).Nodup ∧
    (∀ n, n ∈ akeys (countPhase [] [e]) ↔ Reach e n) ∧
    (∀ c ∈ akeys (countPhase [] [e]), ∀ p ∈ parentsOf c,
      p ∈ akeys (countPhase [] [e])) ∧
    (∀ n, cnt (countPhase [] [e]) n =
      (if n = e then 1 else 0) + rem (akeys (countPhase [] [e])) [] n) ∧
    e ∈ akeys (countPhase [] [e]) := by
  have hinit : CountInv e [] [e] := by
    refine ⟨List.nodup_nil, ?_, ?_, ?_, ?_⟩
    · intro n
      rw [count_cons_node]
      simp [cnt, alook, akeys, rem]
    · intro n hn
      simp [akeys] at hn
    · intro n hn
      rcases List.mem_cons.mp hn with h | h
      · exact h ▸ Reach.refl e
      · simp at h
    · intro c hc
      simp [akeys] at hc
  obtain ⟨hfin, hsub, hstack⟩ :=
    countPhase_spec e (sizeOf [e]) [e] [] (le_refl _) hinit
  obtain ⟨hnd, hcount, hreach, hstk, hclose⟩ := hfin
  have hemem : e ∈ akeys (countPhase [] [e]) :=
    hstack e (List.mem_cons_self _ _)
  have hclose' : ∀ c ∈ akeys (countPhase [] [e]), ∀ p ∈ parentsOf c,
      p ∈ akeys (countPhase [] [e]) := by
    intro c hc p hp
    rcases hclose c hc p hp with h | h
    · exact h
    · simp at h
  have hcompl : ∀ n, Reach e n → n ∈ akeys (countPhase [] [e]) := by
    intro n hr
    induction hr with
    | refl => exact hemem
    | step hr hp ihr => exact hclose' _ ihr _ hp
  refine ⟨hnd, fun n => ⟨hreach n, hcompl n⟩, hclose', ?_, hemem⟩
  intro n
  have := hcount n
  simpa using this

theorem processParents_spec (K E' : List GNode) :
    ∀ (ps : List GNode) (m : Counts) (cl : List GNode),
    (∀ p ∈ ps, p ∈ K ∧ p ∉ E') →
    cl.Nodup →
    (∀ n ∈ cl, n ∈ K ∧ n ∉ E' ∧ alook m n = some 1 ∧ rem K E' n = 0 ∧
      ps.count n = 0) →
    (∀ n ∈ K, n ∉ E' → n ∉ cl →
      alook m n = some (rem K E' n + ps.count n) ∧
        1 ≤ rem K E' n + ps.count n) →
    ∃ m' cl', processParents m ps cl = some (m', cl') ∧
      cl'.Nodup ∧
      (∀ n ∈ cl', n ∈ K ∧ n ∉ E' ∧ alook m' n = some 1 ∧ rem K E' n = 0) ∧
      (∀ n ∈ K, n ∉ E' → n ∉ cl' →
        alook m' n = some (rem K E' n) ∧ 1 ≤ rem K E' n) ∧
      (∀ n ∈ cl, n ∈ cl') := by
  intro ps
  induction ps with
  | nil =>
    intro m cl hps hcl0 hcl hout
    refine ⟨m, cl, rfl, hcl0, ?_, ?_, fun n hn => hn⟩
    · intro n hn
      obtain ⟨h1, h2, h3, h4, _⟩ := hcl n hn
      exact ⟨h1, h2, h3, h4⟩
    · intro n hn h1 h2
      have := hout n hn h1 h2
      simpa using this
  | cons p rest ih =>
    intro m cl hps hcl0 hcl hout
    have hpK := (hps p (List.mem_cons_self _ _)).1
    have hpE : p ∉ E' := (hps p (List.mem_cons_self _ _)).2
    have hpcl : p ∉ cl := by
      intro hmem
      have := (hcl p hmem).2.2.2.2
      rw [count_cons_node, if_pos rfl] at this
      omega
    have hlk := hout p hpK hpE hpcl
    have hcountp : (p :: rest).count p = rest.count p + 1 := by
      rw [count_cons_node, if_pos rfl]
    by_cases hv : rem K E' p + (p :: rest).count p = 1
    · -- the count reaches 1: push p onto the childless stack
      have hrem0 : rem K E' p = 0 ∧ rest.count p = 0 := by
        rw [hcountp] at hv
        omega
      have hred : processParents m (p :: rest) cl =
          processParents m rest (p :: cl) := by
        simp only [processParents, hlk.1]
        rw [if_pos hv]
      obtain ⟨m', cl', hpp, hnd', hclp, houtp, hsup⟩ :=
        ih m (p :: cl)
          (fun q hq => hps q (List.mem_cons_of_mem _ hq))
          (List.nodup_cons.mpr ⟨hpcl, hcl0⟩)
          (by
            intro n hn
            rcases List.mem_cons.mp hn with h | h
            · subst h
              refine ⟨hpK, hpE, ?_, hrem0.1, hrem0.2⟩
              rw [hlk.1, hv]
            · obtain ⟨h1, h2, h3, h4, h5⟩ := hcl n h
              rw [count_cons_node] at h5
              refine ⟨h1, h2, h3, h4, by omega⟩)
          (by
            intro n hn h1 h2
            have hne : n ≠ p := fun hh => h2 (hh ▸ List.mem_cons_self _ _)
            have h3 : n ∉ cl := fun hh => h2 (List.mem_cons_of_mem _ hh)
            have := hout n hn h1 h3
            rw [count_cons_node, if_neg hne] at this
            simpa using this)
      exact ⟨m', cl', by rw [hred]; exact hpp, hnd', hclp, houtp,
        fun n hn => hsup n (List.mem_cons_of_mem _ hn)⟩
    · -- count stays above 1: decrement it
      have hv2 : 2 ≤ rem K E' p + (p :: rest).count p := by
        have := hlk.2
        omega
      have hred : processParents m (p :: rest) cl =
          processParents (aset m p (rem K E' p + (p :: rest).count p - 1))
            rest cl := by
        simp only [processParents, hlk.1]
        rw [if_neg hv]
      obtain ⟨m', cl', hpp, hnd', hclp, houtp, hsup⟩ :=
        ih (aset m p (rem K E' p + (p :: rest).count p - 1)) cl
          (fun q hq => hps q (List.mem_cons_of_mem _ hq))
          hcl0
          (by
            intro n hn
            obtain ⟨h1, h2, h3, h4, h5⟩ := hcl n hn
            have hne : n ≠ p := fun hh => hpcl (hh ▸ hn)
            rw [count_cons_node] at h5
            refine ⟨h1, h2, ?_, h4, by omega⟩
            rw [alook_aset_ne _ _ _ _ hne]
            exact h3)
          (by
            intro n hn h1 h2
            by_cases hne : n = p
            · subst hne
              rw [alook_aset_self]
              rw [hcountp]
              constructor
              · exact congrArg some (by omega)
              · omega
            · rw [alook_aset_ne _ _ _ _ hne]
              have := hout n hn h1 h2
              rw [count_cons_node, if_neg hne] at this
              simpa using this)
      exact ⟨m', cl', by rw [hred]; exact hpp, hnd', hclp, houtp, hsup⟩

theorem emitPhase_cons (m : Counts) (node : GNode) (rest : List GNode)
    (m' : Counts) (cl' : List GNode)
    (h : processParents m (parentsOf node) rest = some (m', cl')) :
    emitPhase m (node :: rest) = (emitPhase m' cl').map (fun l => node :: l) := by
  rw [emitPhase]
  split
  · rename_i heq
    rw [h] at heq
    exact Option.noConfusion heq
  · rename_i m2 cl2 heq
    rw [h] at heq
    cases heq
    rfl

theorem emitPhase_spec (e : GNode) (K : List GNode) (hK : K.Nodup)
    (hKreach : ∀ n ∈ K, Reach e n)
    (hKclose : ∀ c ∈ K, ∀ p ∈ parentsOf c, p ∈ K) :
    ∀ (fuel : Nat) (cl : List GNode) (m : Counts) (E : List GNode),
    sizeOf cl ≤ fuel →
    cl.Nodup →
    (∀ n ∈ cl, n ∈ K ∧ n ∉ E ∧ alook m n = some 1 ∧ rem K E n = 0) →
    (∀ n ∈ K, n ∉ E → n ∉ cl →
      alook m n = some (rem K E n) ∧ 1 ≤ rem K E n) →
    (∀ x ∈ E, x ∈ K ∧ rem K E x = 0) →
    ∃ l, emitPhase m cl = some l ∧
      (∀ n, n ∈ l ↔ (n ∈ K ∧ n ∉ E)) ∧
      l.Nodup ∧
      (∀ l₁ n l₂, l = l₁ ++ n :: l₂ → ∀ c ∈ K, n ∈ parentsOf c →
        c ∈ E ∨ c ∈ l₁) := by
  intro fuel
  induction fuel with
  | zero =>
    intro cl m E hsz
    cases cl with
    | nil =>
      intro _ hcl hout hE
      refine ⟨[], by rw [emitPhase], ?_, List.nodup_nil, ?_⟩
      · have key : ∀ (b : Nat) (n : GNode), n ∈ K → n ∉ E →
            sizeOf e < sizeOf n + b → False := by
          intro b
          induction b with
          | zero =>
            intro n hn hne hlt
            have := reach_sizeOf e n (hKreach n hn)
            omega
          | succ b ihb =>
            intro n hn hne hlt
            have h1 : 1 ≤ rem K E n := (hout n hn hne (List.not_mem_nil n)).2
            obtain ⟨c, hcK, hcE, hcp⟩ := rem_pos_exists K E n (by omega)
            have hsz2 := parent_sizeOf_lt n c hcp
            exact ihb c hcK hcE (by omega)
        intro n
        constructor
        · intro hn
          exact absurd hn (List.not_mem_nil n)
        · rintro ⟨hn, hne⟩
          exact absurd (key (sizeOf e + 1) n hn hne (by omega)) (fun h => h)
      · intro l₁ n l₂ hdec
        exact absurd hdec (by simp)
    | cons node rest =>
      simp only [List.cons.sizeOf_spec] at hsz
      omega
  | succ fuel ihf =>
    intro cl m E hsz
    cases cl with
    | nil =>
      intro _ hcl hout hE
      refine ⟨[], by rw [emitPhase], ?_, List.nodup_nil, ?_⟩
      · have key : ∀ (b : Nat) (n : GNode), n ∈ K → n ∉ E →
            sizeOf e < sizeOf n + b → False := by
          intro b
          induction b with
          | zero =>
            intro n hn hne hlt
            have := reach_sizeOf e n (hKreach n hn)
            omega
          | succ b ihb =>
            intro n hn hne hlt
            have h1 : 1 ≤ rem K E n := (hout n hn hne (List.not_mem_nil n)).2
            obtain ⟨c, hcK, hcE, hcp⟩ := rem_pos_exists K E n (by omega)
            have hsz2 := parent_sizeOf_lt n c hcp
            exact ihb c hcK hcE (by omega)
        intro n
        constructor
        · intro hn
          exact absurd hn (List.not_mem_nil n)
        · rintro ⟨hn, hne⟩
          exact absurd (key (sizeOf e + 1) n hn hne (by omega)) (fun h => h)
      · intro l₁ n l₂ hdec
        exact absurd hdec (by simp)
    | cons node rest =>
      intro hclnd hcl hout hE
      obtain ⟨hnK, hnE, hn1, hnrem⟩ := hcl node (List.mem_cons_self _ _)
      have hndrest : rest.Nodup := (List.nodup_cons.mp hclnd).2
      have hnotinrest : node ∉ rest := (List.nodup_cons.mp hclnd).1
      -- the parent loop runs against E extended by the just-emitted node
      obtain ⟨m', cl', hpp, hnd', hcl'', hout'', hsup⟩ :=
        processParents_spec K (node :: E) (parentsOf node) m rest
          (by
            intro p hp
            refine ⟨hKclose node hnK p hp, ?_⟩
            intro hmem
            rcases List.mem_cons.mp hmem with h | h
            · have := parent_sizeOf_lt p node hp
              rw [h] at this
              omega
            · have h0 := (hE p h).2
              have h1 := rem_pos_of K E node p hnK hnE hp
              omega)
          hndrest
          (by
            intro n hn
            obtain ⟨h1, h2, h3, h4⟩ := hcl n (List.mem_cons_of_mem _ hn)
            have hnn : n ≠ node := fun hh => hnotinrest (hh ▸ hn)
            have hext := rem_extend K node E n hK hnK hnE
            refine ⟨h1, ?_, h3, by omega, by omega⟩
            intro hmem
            rcases List.mem_cons.mp hmem with h | h
            · exact hnn h
            · exact h2 h)
          (by
            intro n hn h1 h2
            have hnn : n ≠ node := fun hh => h1 (hh ▸ List.mem_cons_self _ _)
            have h1' : n ∉ E := fun hh => h1 (List.mem_cons_of_mem _ hh)
            have h2' : n ∉ node :: rest := by
              intro hh
              rcases List.mem_cons.mp hh with h | h
              · exact hnn h
              · exact h2 h
            have := hout n hn h1' h2'
            have hext := rem_extend K node E n hK hnK hnE
            rw [hext] at this
            exact this)
      have hE' : ∀ x ∈ node :: E, x ∈ K ∧ rem K (node :: E) x = 0 := by
        intro x hx
        have hextx : ∀ y, rem K E y = rem K (node :: E) y +
            (parentsOf node).count y := fun y => rem_extend K node E y hK hnK hnE
        rcases List.mem_cons.mp hx with h | h
        · have h2 := hextx node
          refine ⟨h ▸ hnK, ?_⟩
          rw [h]
          omega
        · have h0 := (hE x h).2
          have := hextx x
          exact ⟨(hE x h).1, by omega⟩
      have hszcl' : sizeOf cl' ≤ fuel := by
        have h1 := processParents_sizeOf _ _ _ _ _ hpp
        have h2 := parentsOf_sizeOf node
        simp only [List.cons.sizeOf_spec] at hsz
        omega
      obtain ⟨l', hl'eq, hmem', hnd'', hord'⟩ :=
        ihf cl' m' (node :: E) hszcl' hnd'
          (by
            intro n hn
            obtain ⟨h1, h2, h3, h4⟩ := hcl'' n hn
            exact ⟨h1, h2, h3, h4⟩)
          hout'' hE'
      refine ⟨node :: l', ?_, ?_, ?_, ?_⟩
      · rw [emitPhase_cons m node rest m' cl' hpp, hl'eq]
        rfl
      · intro n
        constructor
        · intro hn
          rcases List.mem_cons.mp hn with h | h
          · exact h ▸ ⟨hnK, hnE⟩
          · obtain ⟨h1, h2⟩ := (hmem' n).mp h
            exact ⟨h1, fun hh => h2 (List.mem_cons_of_mem _ hh)⟩
        · rintro ⟨h1, h2⟩
          by_cases hnn : n = node
          · exact hnn ▸ List.mem_cons_self _ _
          · refine List.mem_cons_of_mem _ ((hmem' n).mpr ⟨h1, ?_⟩)
            intro hh
            rcases List.mem_cons.mp hh with h | h
            · exact hnn h
            · exact h2 h
      · refine List.nodup_cons.mpr ⟨?_, hnd''⟩
        intro hmem
        have := ((hmem' node).mp hmem).2
        exact this (List.mem_cons_self _ _)
      · intro l₁ n l₂ hdec c hcK hcp
        cases l₁ with
        | nil =>
          simp only [List.nil_append, List.cons.injEq] at hdec
          obtain ⟨h1, h2⟩ := hdec
          subst h1
          by_cases hcE : c ∈ E
          · exact Or.inl hcE
          · exfalso
            have := rem_pos_of K E c node hcK hcE hcp
            omega
        | cons a l₁' =>
          simp only [List.cons_append, List.cons.injEq] at hdec
          obtain ⟨h1, h2⟩ := hdec
          rcases hord' l₁' n l₂ h2 c hcK hcp with h3 | h3
          · rcases List.mem_cons.mp h3 with h4 | h4
            · exact Or.inr (by rw [h4, ← h1]; exact List.mem_cons_self _ _)
            · exact Or.inl h4
          · exact Or.inr (List.mem_cons_of_mem _ h3)

/-- Full correctness of util.py `toposort`: it succeeds on every recorded
graph, emits exactly the nodes reachable from the end node, each exactly once
(the output has no duplicates), and emits a node only after every reachable
consumer of that node. -/
theorem toposort_correct (e : GNode) :
    ∃ l, toposort e = some l ∧ (∀ n, n ∈ l ↔ Reach e n) ∧ l.Nodup ∧
      (∀ l₁ n l₂, l = l₁ ++ n :: l₂ → ∀ c, Reach e c → n ∈ parentsOf c →
        c ∈ l₁) := by
  obtain ⟨hnd, hiff, hclose, hcount, hemem⟩ := countPhase_conclusion e
  have hreme : rem (akeys (countPhase [] [e])) [] e = 0 := by
    by_contra hpos
    obtain ⟨c, hcK, _, hcp⟩ :=
      rem_pos_exists (akeys (countPhase [] [e])) [] e (by omega)
    exact end_no_consumer e c ((hiff c).mp hcK) hcp
  have hlooke : alook (countPhase [] [e]) e = some 1 := by
    have := hcount e
    rw [if_pos rfl, hreme] at this
    rw [cnt] at this
    cases hl : alook (countPhase [] [e]) e with
    | none => rw [hl] at this; simp at this
    | some v =>
      rw [hl] at this
      simp only [Option.getD_some] at this
      rw [this]
  obtain ⟨l, hleq, hmem, hlnd, hord⟩ :=
    emitPhase_spec e (akeys (countPhase [] [e])) hnd
      (fun n hn => (hiff n).mp hn) hclose
      (sizeOf [e]) [e] (countPhase [] [e]) [] (le_refl _)
      (List.nodup_cons.mpr ⟨List.not_mem_nil e, List.nodup_nil⟩)
      (by
        intro n hn
        rcases List.mem_cons.mp hn with h | h
        · subst h
          exact ⟨hemem, List.not_mem_nil n, hlooke, hreme⟩
        · simp at h)
      (by
        intro n hn h1 h2
        have hne : n ≠ e := fun hh => h2 (hh ▸ List.mem_cons_self _ _)
        have hrn : 1 ≤ rem (akeys (countPhase [] [e])) [] n := by
          obtain ⟨c, hrc, hcp⟩ :=
            reach_ne_exists_consumer e n ((hiff n).mp hn) hne
          exact rem_pos_of _ _ c n ((hiff c).mpr hrc) (List.not_mem_nil c) hcp
        have := hcount n
        rw [if_neg hne] at this
        simp only [Nat.zero_add] at this
        rw [cnt] at this
        cases hl : alook (countPhase [] [e]) n with
        | none => rw [hl] at this; simp at this; omega
        | some v =>
          rw [hl] at this
          simp only [Option.getD_some] at this
          exact ⟨by rw [this], hrn⟩)
      (by intro x hx; simp at hx)
  refine ⟨l, hleq, ?_, hlnd, ?_⟩
  · intro n
    rw [hmem n]
    constructor
    · intro h
      exact (hiff n).mp h.1
    · intro h
      exact ⟨(hiff n).mpr h, List.not_mem_nil n⟩
  · intro l₁ n l₂ hdec c hrc hcp
    rcases hord l₁ n l₂ hdec c ((hiff c).mpr hrc) hcp with h | h
    · exact absurd h (List.not_mem_nil c)
    · exact h

theorem order_before (l : List GNode) (e : GNode)
    (hord : ∀ l₁ n l₂, l = l₁ ++ n :: l₂ → ∀ c, Reach e c → n ∈ parentsOf c →
      c ∈ l₁) :
    ∀ a b, Reach a b → Reach e a → ∀ l₁ l₂, l = l₁ ++ b :: l₂ →
      a = b ∨ a ∈ l₁ := by
  intro a b hab
  induction hab with
  | refl => intro _ _ _ _; exact Or.inl rfl
  | step hr hp ih =>
    rename_i nn pp
    intro hea l₁ l₂ hdec
    have hreachnn : Reach e nn := reach_trans _ _ _ hea hr
    have hnl₁ : nn ∈ l₁ := hord l₁ pp l₂ hdec nn hreachnn hp
    obtain ⟨m₁, m₂, hm⟩ := List.append_of_mem hnl₁
    have hdec2 : l = m₁ ++ nn :: (m₂ ++ pp :: l₂) := by
      rw [hdec, hm]
      simp
    rcases ih hea m₁ (m₂ ++ pp :: l₂) hdec2 with h | h
    · refine Or.inr ?_
      rw [hm, h]
      exact List.mem_append_right _ (List.mem_cons_self _ _)
    · refine Or.inr ?_
      rw [hm]
      exact List.mem_append_left _ h

theorem root_last (l : List GNode) (e : GNode)
    (hmem : ∀ n, n ∈ l ↔ Reach e n) (hnd : l.Nodup)
    (hord : ∀ l₁ n l₂, l = l₁ ++ n :: l₂ → ∀ c, Reach e c → n ∈ parentsOf c →
      c ∈ l₁)
    (hroot : ∀ n, Reach e n → Reach n GNode.root) :
    ∃ l', l = l' ++ [GNode.root] := by
  have hrootmem : GNode.root ∈ l := (hmem _).mpr (hroot e (Reach.refl e))
  obtain ⟨r₁, r₂, hr⟩ := List.append_of_mem hrootmem
  cases r₂ with
  | nil => exact ⟨r₁, hr⟩
  | cons y r₂' =>
    exfalso
    have hyl : y ∈ l := by
      rw [hr]
      exact List.mem_append_right _ (List.mem_cons_of_mem _
        (List.mem_cons_self _ _))
    have hye : Reach e y := (hmem y).mp hyl
    have hnd2 : (r₁ ++ GNode.root :: y :: r₂').Nodup := hr ▸ hnd
    rcases order_before l e hord y GNode.root (hroot y hye) hye r₁ (y :: r₂')
        hr with h | h
    · have hn3 : GNode.root ∉ y :: r₂' :=
        (List.nodup_cons.mp (List.nodup_append.mp hnd2).2.1).1
      exact hn3 (h ▸ List.mem_cons_self _ _)
    · exact (List.nodup_append.mp hnd2).2.2 h
        (List.mem_cons_of_mem _ (List.mem_cons_self _ _))

theorem processNodeGrads_ok (env : Env) (reg : Registry) (og : PyVal)
    (node : GNode) : ∀ (zs : List (Nat × GNode)) (ogs0 : List (GNode × PyVal)),
    (∀ q ∈ zs, (reg (nodeFid node) q.1).isSome = true) →
    ∃ ogs', processNodeGrads env reg og node zs ogs0 = some ogs' ∧
      (∀ x, (alook ogs0 x).isSome = true → (alook ogs' x).isSome = true) ∧
      (∀ q ∈ zs, (alook ogs' q.2).isSome = true) := by
  intro zs
  induction zs with
  | nil =>
    intro ogs0 _
    exact ⟨ogs0, rfl, fun x h => h, by simp⟩
  | cons q rest ih =>
    intro ogs0 hz
    obtain ⟨a, p⟩ := q
    obtain ⟨rule, hrule⟩ := Option.isSome_iff_exists.mp
      (hz (a, p) (List.mem_cons_self _ _))
    have hred : processNodeGrads env reg og node ((a, p) :: rest) ogs0 =
        processNodeGrads env reg og node rest
          (aset ogs0 p (add_outgrads env (alook ogs0 p)
            (rule og (nodeVal node) (nodeArgs node) (nodeKW node)))) := by
      simp only [processNodeGrads, hrule]
    obtain ⟨ogs', hpg, hmono, hzq⟩ :=
      ih (aset ogs0 p (add_outgrads env (alook ogs0 p)
          (rule og (nodeVal node) (nodeArgs node) (nodeKW node))))
        (fun q hq => hz q (List.mem_cons_of_mem _ hq))
    have hsetmono : ∀ x, (alook ogs0 x).isSome = true →
        (alook (aset ogs0 p (add_outgrads env (alook ogs0 p)
          (rule og (nodeVal node) (nodeArgs node) (nodeKW node)))) x).isSome =
        true := by
      intro x hx
      by_cases hxp : x = p
      · rw [hxp, alook_aset_self]
        rfl
      · rw [alook_aset_ne _ _ _ _ hxp]
        exact hx
    refine ⟨ogs', by rw [hred]; exact hpg, fun x hx => hmono x (hsetmono x hx),
      ?_⟩
    intro q hq
    rcases List.mem_cons.mp hq with h | h
    · rw [h]
      refine hmono p ?_
      rw [alook_aset_self]
      rfl
    · exact hzq q h

theorem bpSteps_ok (env : Env) (reg : Registry) (e : GNode) (l : List GNode)
    (hmem : ∀ n, n ∈ l ↔ Reach e n) (hnd : l.Nodup)
    (hord : ∀ l₁ n l₂, l = l₁ ++ n :: l₂ → ∀ c, Reach e c → n ∈ parentsOf c →
      c ∈ l₁)
    (hreg : ∀ n, Reach e n → ∀ a ∈ nodeArgnums n,
      (reg (nodeFid n) a).isSome = true)
    (hlen : ∀ n, Reach e n → (nodeArgnums n).length = (parentsOf n).length) :
    ∀ (S P T : List GNode) (ogs : List (GNode × PyVal)),
    l = P ++ S ++ T →
    (∀ n, n ∉ P → (n = e ∨ ∃ c ∈ P, n ∈ parentsOf c) →
      (alook ogs n).isSome = true) →
    ∃ ogsF, bpSteps env reg S ogs = some ogsF ∧
      (∀ n, n ∉ P ++ S → (n = e ∨ ∃ c ∈ P ++ S, n ∈ parentsOf c) →
        (alook ogsF n).isSome = true) := by
  intro S
  induction S with
  | nil =>
    intro P T ogs hl hinv
    refine ⟨ogs, rfl, ?_⟩
    intro n hn hc
    rw [List.append_nil] at hn hc
    exact hinv n hn hc
  | cons node rest ih =>
    intro P T ogs hl hinv
    have hl2 : l = P ++ node :: (rest ++ T) := by
      rw [hl]
      simp
    have hnd2 : (P ++ node :: (rest ++ T)).Nodup := hl2 ▸ hnd
    have hnodemem : node ∈ l := by
      rw [hl2]
      exact List.mem_append_right _ (List.mem_cons_self _ _)
    have hPnode : node ∉ P := fun hp =>
      (List.nodup_append.mp hnd2).2.2 hp (List.mem_cons_self _ _)
    have hrnode : Reach e node := (hmem node).mp hnodemem
    have hentry : (alook ogs node).isSome = true := by
      refine hinv node hPnode ?_
      by_cases hne : node = e
      · exact Or.inl hne
      · obtain ⟨c, hrc, hcp⟩ := reach_ne_exists_consumer e node hrnode hne
        exact Or.inr ⟨c, hord P node (rest ++ T) hl2 c hrc hcp, hcp⟩
    obtain ⟨og, hog⟩ := Option.isSome_iff_exists.mp hentry
    have hz : ∀ q ∈ (nodeArgnums node).zip (parentsOf node),
        (reg (nodeFid node) q.1).isSome = true := by
      intro q hq
      exact hreg node hrnode q.1 (List.of_mem_zip hq).1
    obtain ⟨ogs1, hpng, hmono, hzq⟩ :=
      processNodeGrads_ok env reg og node
        ((nodeArgnums node).zip (parentsOf node)) (aremove ogs node) hz
    have hred : bpSteps env reg (node :: rest) ogs = bpSteps env reg rest ogs1 := by
      simp only [bpSteps, hog, hpng]
    have hsnd : ((nodeArgnums node).zip (parentsOf node)).map Prod.snd =
        parentsOf node :=
      List.map_snd_zip _ _ (le_of_eq (hlen node hrnode).symm)
    have hinv' : ∀ n, n ∉ P ++ [node] →
        (n = e ∨ ∃ c ∈ P ++ [node], n ∈ parentsOf c) →
        (alook ogs1 n).isSome = true := by
      intro n hn hc
      have hnP : n ∉ P := fun h => hn (List.mem_append_left _ h)
      have hnn : n ≠ node := fun h =>
        hn (List.mem_append_right _ (h ▸ List.mem_cons_self _ _))
      rcases hc with hc | ⟨c, hcm, hcp⟩
      · refine hmono n ?_
        rw [alook_aremove_ne _ _ _ hnn]
        exact hinv n hnP (Or.inl hc)
      · rcases List.mem_append.mp hcm with hcm | hcm
        · refine hmono n ?_
          rw [alook_aremove_ne _ _ _ hnn]
          exact hinv n hnP (Or.inr ⟨c, hcm, hcp⟩)
        · have hcnode : c = node := by
            rcases List.mem_cons.mp hcm with h | h
            · exact h
            · exact absurd h (List.not_mem_nil c)
          have hnp2 : n ∈ ((nodeArgnums node).zip (parentsOf node)).map
              Prod.snd := by
            rw [hsnd, ← hcnode]
            exact hcp
          obtain ⟨q, hq, hq2⟩ := List.mem_map.mp hnp2
          have := hzq q hq
          rw [hq2] at this
          exact this
    have hl' : l = (P ++ [node]) ++ rest ++ T := by
      rw [hl]
      simp
    obtain ⟨ogsF, hf1, hf2⟩ := ih (P ++ [node]) T ogs1 hl' hinv'
    refine ⟨ogsF, by rw [hred]; exact hf1, ?_⟩
    intro n hn hc
    refine hf2 n (fun hh => hn ?_) ?_
    · rcases List.mem_append.mp hh with hh | hh
      · rcases List.mem_append.mp hh with hh2 | hh2
        · exact List.mem_append_left _ hh2
        · rcases List.mem_cons.mp hh2 with hh3 | hh3
          · exact List.mem_append_right _ (hh3 ▸ List.mem_cons_self _ _)
          · exact absurd hh3 (List.not_mem_nil n)
      · exact List.mem_append_right _ (List.mem_cons_of_mem _ hh)
    · rcases hc with hc | ⟨c, hcm, hcp⟩
      · exact Or.inl hc
      · refine Or.inr ⟨c, ?_, hcp⟩
        rcases List.mem_append.mp hcm with hh | hh
        · exact List.mem_append_left _ (List.mem_append_left _ hh)
        · rcases List.mem_cons.mp hh with hh2 | hh2
          · exact List.mem_append_left _
              (List.mem_append_right _ (hh2 ▸ List.mem_cons_self _ _))
          · exact List.mem_append_right _ hh2

theorem bpLoop_append (env : Env) (reg : Registry) :
    ∀ (l₁ l₂ : List GNode) (ogs : List (GNode × PyVal)) (o : Option PyVal)
      (ogsF : List (GNode × PyVal)),
    bpSteps env reg l₁ ogs = some ogsF →
    ∃ o', bpLoop env reg (l₁ ++ l₂) ogs o = bpLoop env reg l₂ ogsF o' := by
  intro l₁
  induction l₁ with
  | nil =>
    intro l₂ ogs o ogsF h
    simp only [bpSteps, Option.some.injEq] at h
    exact ⟨o, by rw [← h]; rfl⟩
  | cons node rest ih =>
    intro l₂ ogs o ogsF h
    cases hog : alook ogs node with
    | none =>
      rw [bpSteps, hog] at h
      exact absurd h (by simp)
    | some og =>
      cases hpg : processNodeGrads env reg og node
          ((nodeArgnums node).zip (parentsOf node)) (aremove ogs node) with
      | none =>
        rw [bpSteps, hog] at h
        simp only [hpg] at h
        exact absurd h (by simp)
      | some ogs1 =>
        rw [bpSteps, hog] at h
        simp only [hpg] at h
        have hred : bpLoop env reg ((node :: rest) ++ l₂) ogs o =
            bpLoop env reg (rest ++ l₂) ogs1 (some og) := by
          simp only [List.cons_append, bpLoop, hog, hpg]
          rfl
        rw [hred]
        exact ih l₂ ogs1 (some og) ogsF h

theorem bpLoop_root (env : Env) (reg : Registry)
    (ogsF : List (GNode × PyVal)) (o' : Option PyVal) (og : PyVal)
    (hog : alook ogsF GNode.root = some og) :
    bpLoop env reg [GNode.root] ogsF o' = .ok og := by
  simp only [bpLoop, hog, nodeArgnums, parentsOf, List.zip, processNodeGrads]

end ToposortCorrectness

/-- C7: on every recorded graph (acyclic with possibly shared parents),
`toposort` succeeds and emits exactly the nodes reachable from the end node
via parent edges, each exactly once, and emits every node only after all of
its consumers — whenever the output is split around an emitted node `n`,
every reachable consumer of `n` lies in the part emitted before it. -/
theorem claim_C7 (e : GNode) :
    ∃ l, toposort e = some l ∧ (∀ n, n ∈ l ↔ Reach e n) ∧
      (∀ n, Reach e n → l.count n = 1) ∧
      (∀ l₁ n l₂, l = l₁ ++ n :: l₂ → ∀ c, Reach e c → n ∈ parentsOf c →
        c ∈ l₁) := by
  obtain ⟨l, h1, h2, h3, h4⟩ := toposort_correct e
  exact ⟨l, h1, h2,
    fun n hn => List.count_eq_one_of_mem h3 ((h2 n).mpr hn), h4⟩

theorem claim_C7_witness :
    ∃ l, toposort GNode.root = some l ∧
      (∀ n, n ∈ l ↔ Reach GNode.root n) ∧
      (∀ n, Reach GNode.root n → l.count n = 1) ∧
      (∀ l₁ n l₂, l = l₁ ++ n :: l₂ → ∀ c, Reach GNode.root c →
        n ∈ parentsOf c → c ∈ l₁) :=
  claim_C7 GNode.root

/-- The two-node graph used by the C6 witness: one recorded multiplication
whose only parent is the root. -/
def wEndNode : GNode := .node 1 (.raw 0 6) [.raw 0 2] 0 [0] [.root]

/-- C6: on every DAG recorded by one trace (each non-root reachable node has
parents, the root is an ancestor of every reachable node, recipes zip
argnums against parents one-to-one, and the registry serves every recorded
(primitive, argnum)), the topological order ends at the root node, and
`backward_pass` returns the root's accumulated cotangent — the entry that the
`outgrads` dict holds for the root when the final loop iteration pops it. -/
theorem claim_C6 (env : Env) (reg : Registry) (g : PyVal) (e : GNode)
    (H1 : ∀ n, Reach e n → Reach n GNode.root)
    (H2 : ∀ n, Reach e n → n ≠ GNode.root → parentsOf n ≠ [])
    (H3 : ∀ n, Reach e n → ∀ a ∈ nodeArgnums n,
      (reg (nodeFid n) a).isSome = true)
    (H4 : ∀ n, Reach e n → (nodeArgnums n).length = (parentsOf n).length) :
    ∃ l' ogsF og, toposort e = some (l' ++ [GNode.root]) ∧
      bpSteps env reg l' [(e, g)] = some ogsF ∧
      alook ogsF GNode.root = some og ∧
      backward_pass env reg g e = .ok og := by
  obtain ⟨l, hleq, hmem, hnd, hord⟩ := toposort_correct e
  obtain ⟨l', hl'⟩ := root_last l e hmem hnd hord H1
  have hndl : (l' ++ [GNode.root]).Nodup := hl' ▸ hnd
  have hrootnot : GNode.root ∉ l' := fun h =>
    (List.nodup_append.mp hndl).2.2 h (List.mem_cons_self _ _)
  obtain ⟨ogsF, hsteps, hpost⟩ :=
    bpSteps_ok env reg e l hmem hnd hord H3 H4 l' [] [GNode.root] [(e, g)]
      (by rw [hl']; rfl)
      (by
        intro n hn hc
        rcases hc with hc | ⟨c, hcm, _⟩
        · rw [hc]
          rw [alook, if_pos rfl]
          rfl
        · exact absurd hcm (List.not_mem_nil c))
  have hrootentry : (alook ogsF GNode.root).isSome = true := by
    refine hpost GNode.root ?_ ?_
    · intro hh
      rw [List.nil_append] at hh
      exact hrootnot hh
    · by_cases he : e = GNode.root
      · exact Or.inl he.symm
      · have hr : Reach e GNode.root := H1 e (Reach.refl e)
        obtain ⟨c, hrc, hcp⟩ := reach_ne_exists_consumer e GNode.root hr
          (fun hh => he hh.symm)
        have hcl : c ∈ l := (hmem c).mpr hrc
        have hcne : c ≠ GNode.root := by
          intro hh
          have := parent_sizeOf_lt GNode.root c hcp
          rw [hh] at this
          omega
        have hcl' : c ∈ l' := by
          rw [hl'] at hcl
          rcases List.mem_append.mp hcl with h | h
          · exact h
          · rcases List.mem_cons.mp h with h2 | h2
            · exact absurd h2 hcne
            · exact absurd h2 (List.not_mem_nil c)
        refine Or.inr ⟨c, ?_, hcp⟩
        rw [List.nil_append]
        exact hcl'
  obtain ⟨og, hogroot⟩ := Option.isSome_iff_exists.mp hrootentry
  obtain ⟨o', hlapp⟩ :=
    bpLoop_append env reg l' [GNode.root] [(e, g)] none ogsF hsteps
  have hbp : backward_pass env reg g e = .ok og := by
    simp only [backward_pass, hleq]
    rw [hl', hlapp]
    exact bpLoop_root env reg ogsF o' og hogroot
  exact ⟨l', ogsF, og, hl' ▸ hleq, hsteps, hogroot, hbp⟩

theorem claim_C6_witness :
    (∀ n, Reach wEndNode n → Reach n GNode.root) ∧
      ∃ l' ogsF og,
        toposort wEndNode = some (l' ++ [GNode.root]) ∧
        bpSteps sampleEnv sampleReg l' [(wEndNode, PyVal.raw 0 1)] =
          some ogsF ∧
        alook ogsF GNode.root = some og ∧
        backward_pass sampleEnv sampleReg (.raw 0 1) wEndNode = .ok og := by
  have hchar : ∀ n, Reach wEndNode n → n = wEndNode ∨ n = GNode.root := by
    intro n h
    induction h with
    | refl => exact Or.inl rfl
    | step hr hp ih =>
      rename_i nn pp
      rcases ih with h2 | h2
      · rw [h2] at hp
        simp only [wEndNode, parentsOf] at hp
        rcases List.mem_cons.mp hp with h3 | h3
        · exact Or.inr h3
        · exact absurd h3 (List.not_mem_nil pp)
      · rw [h2] at hp
        simp only [parentsOf] at hp
        exact absurd hp (List.not_mem_nil pp)
  have H1 : ∀ n, Reach wEndNode n → Reach n GNode.root := by
    intro n h
    rcases hchar n h with h2 | h2
    · rw [h2]
      refine Reach.step (Reach.refl wEndNode) ?_
      simp [wEndNode, parentsOf]
    · rw [h2]
      exact Reach.refl _
  refine ⟨H1, claim_C6 sampleEnv sampleReg (.raw 0 1) wEndNode H1 ?_ ?_ ?_⟩
  · intro n h hne
    rcases hchar n h with h2 | h2
    · rw [h2]
      simp [wEndNode, parentsOf]
    · exact absurd h2 hne
  · intro n _ a _
    rfl
  · intro n h
    rcases hchar n h with h2 | h2
    · rw [h2]
      rfl
    · rw [h2]
      rfl

theorem claim_C4_witness :
    find_top_boxed_args
        [PyVal.raw 0 5, PyVal.box (.raw 0 1) 2 .root,
          PyVal.box (.raw 0 2) 1 .root] =
      ([(1, PyVal.box (.raw 0 1) 2 .root)], 2) ∧
    (1, PyVal.box (.raw 0 1) 2 .root) ∈ [(1, PyVal.box (.raw 0 1) 2 .root)] ∧
    1 < ([PyVal.raw 0 5, PyVal.box (.raw 0 1) 2 .root,
      PyVal.box (.raw 0 2) 1 .root] : List PyVal).length :=
  ⟨rfl, List.mem_singleton.mpr rfl,
    ((claim_C4 sampleEnv 0
      [PyVal.raw 0 5, PyVal.box (.raw 0 1) 2 .root, PyVal.box (.raw 0 2) 1 .root]
      0 [(1, PyVal.box (.raw 0 1) 2 .root)] 2 rfl).1
      _ (List.mem_singleton.mpr rfl)).1⟩

end Autodidact
